import Mathlib

/-!
Verification of the selector scoping/encapsulation engine (postcss style
encapsulation plugin).  The development shallowly embeds the selector AST of
postcss-selector-parser together with the plugin's own functions
(safeInsert, safeInsertTag, safeInsertAll, throwFor, rewriteHostContext,
getNodePermutations, createSelectorsFromPermutations, shimSelector,
touchupCombinatorsAroundNgDeep and the Once orchestrator) and proves the
spec's claims about them.

Modelling notes:
* The mutable selector tree is embedded with value semantics: a selector is a
  list of nodes, a position in a selector is an index.  The library's
  container methods (insertBefore, insertAfter, removeChild, prepend, append)
  adjust the indexes of active iterations; this is modelled by the MSt
  structure which carries the node list together with the active each-loop
  index (iter) and one externally tracked node position (ext), updated with
  the library's adjustment rules.
* Cloning a subtree (node.clone / cloneNodes / selectorFromNodes) is the
  identity on values, so clones are not materialised.
* JavaScript runtime failures from an undefined dereference (for example
  calling .parent on undefined) are modelled as an explicit Err.crash.
-/

namespace StyleShim

/-- Selector AST nodes of postcss-selector-parser, as used by the plugin.
A pseudo's argument is a selector list (each argument selector is a list of
nodes).  The selNode constructor is a Selector container occurring as a child
node, which arises when a pseudo is replaced by its first child selector. -/
inductive SNode where
  | tag (value : String)
  | universal
  | cls (value : String)
  | id (value : String)
  | attr (name : String)
  | pseudo (value : String) (args : List (List SNode))
  | comb (value : String)
  | comment (text : String)
  | selNode (nodes : List SNode)
deriving Repr

instance : Inhabited SNode := ⟨.comment ""⟩

/-- Guard isCombinator of postcss-selector-parser: node type is combinator. -/
def isCombinatorN : SNode → Bool
  | .comb _ => true
  | _ => false

/-- Guard isComment: node type is comment. -/
def isCommentN : SNode → Bool
  | .comment _ => true
  | _ => false

/-- Guard isPseudo: node type is pseudo. -/
def isPseudoN : SNode → Bool
  | .pseudo _ _ => true
  | _ => false

/-- Guard isTag: node type is tag (the universal selector has its own type
and is not a tag). -/
def isTagN : SNode → Bool
  | .tag _ => true
  | _ => false

/-- Guard isUniversal: node type is universal. -/
def isUniversalN : SNode → Bool
  | .universal => true
  | _ => false

/-- Lower-casing of a string, character by character (the library compares
the legacy pseudo-element names lower-cased). -/
def lowerStr (s : String) : String := String.mk (s.data.map Char.toLower)

/-- Pseudo-element test on a pseudo's value, as postcss-selector-parser
defines it: a double-colon pseudo, or one of the four legacy single-colon
pseudo-element names (compared lower-cased). -/
def isPseudoElementVal (v : String) : Bool :=
  (match v.data with
   | ':' :: ':' :: _ => true
   | _ => false) ||
  lowerStr v == ":before" || lowerStr v == ":after" ||
  lowerStr v == ":first-letter" || lowerStr v == ":first-line"

/-- Guard isPseudoElement: a pseudo node whose value is a pseudo-element. -/
def isPseudoElementN : SNode → Bool
  | .pseudo v _ => isPseudoElementVal v
  | _ => false

/-- Value of a pseudo node (empty string otherwise); mirrors node.value
accesses that are only reached on pseudo nodes. -/
def pseudoVal : SNode → String
  | .pseudo v _ => v
  | _ => ""

/-- Argument selector list of a pseudo node. -/
def pseudoArgs : SNode → List (List SNode)
  | .pseudo _ args => args
  | _ => []

/-- Errors thrown by the engine.  The plugin throws through throwFor; here
only the kind of failure is tracked.  crash models a JavaScript TypeError
from dereferencing undefined, and fuel models iteration budget exhaustion of
the embedded each loop (the source loop has no such budget; all theorems
quantify over sufficient fuel). -/
inductive Err where
  | cannotInsert (nodeType : String)
  | containsCombinator
  | alreadyContainsPseudoElement
  | alreadyContainsTag
  | crash (what : String)
  | fuel
deriving Repr, DecidableEq

/-- Mutable container state: the node list of the selector being edited, the
index of the active each iteration (iter, an Int because the library lets it
reach -1 transiently when the current node is removed), and one externally
tracked node position (ext), standing for a JavaScript variable holding a
node reference. -/
structure MSt where
  nodes : List SNode
  iter : Int
  ext : Nat
deriving Repr

/-- Container insertBefore at position q, with the library's index
adjustments: an active iteration index at or beyond q moves up by one, and a
tracked node at or beyond q moves up by one. insertAfter of the node at
position p is ins (p+1). -/
def MSt.ins (st : MSt) (q : Nat) (n : SNode) : MSt :=
  { nodes := st.nodes.take q ++ n :: st.nodes.drop q,
    iter := if (q : Int) ≤ st.iter then st.iter + 1 else st.iter,
    ext := if q ≤ st.ext then st.ext + 1 else st.ext }

/-- Container append: push at the end, no index adjustments. -/
def MSt.push (st : MSt) (n : SNode) : MSt :=
  { st with nodes := st.nodes ++ [n] }

/-- Container prepend: unshift, every index adjusts up by one. -/
def MSt.unshift (st : MSt) (n : SNode) : MSt :=
  { nodes := n :: st.nodes, iter := st.iter + 1, ext := st.ext + 1 }

/-- Container removeChild at position p: an iteration index at or beyond p
moves down by one; a tracked node strictly beyond p moves down by one (a
tracked node at p is the removed node itself and keeps its dangling value).
-/
def MSt.del (st : MSt) (p : Nat) : MSt :=
  { nodes := st.nodes.take p ++ st.nodes.drop (p + 1),
    iter := if (p : Int) ≤ st.iter then st.iter - 1 else st.iter,
    ext := if p < st.ext then st.ext - 1 else st.ext }

/-- Node replaceWith for a single replacement: insertBefore the old node then
remove it.  The net node list replaces position p in place. -/
def MSt.replaceAt (st : MSt) (p : Nat) (n : SNode) : MSt :=
  (st.ins p n).del (p + 1)

/-- Compound boundary test of safeInsert's forward scan: a combinator or a
pseudo-element. -/
def isBoundaryN (n : SNode) : Bool :=
  isCombinatorN n || isPseudoElementN n

/-- Forward scan worker over the remaining node suffix, carrying the
absolute position. -/
def scanFwdAux : List SNode → Nat → Option Nat
  | [], _ => none
  | n :: rest, j => if isBoundaryN n then some j else scanFwdAux rest (j + 1)

/-- Forward scan of safeInsert: from position j, find the first combinator or
pseudo-element. -/
def scanFwd (nodes : List SNode) (j : Nat) : Option Nat :=
  scanFwdAux (nodes.drop j) j

/-- Backward scan of safeInsertTag with its insertion actions: from position
k walk toward the container start; a combinator inserts the tag right after
 it, an existing tag fails, a universal selector is replaced in place, and
reaching the start prepends.  Returns the new state and the position of the
inserted tag. -/
def tagScanGo (st : MSt) (k : Nat) (toInsert : SNode) : Except Err (MSt × Nat) :=
  let n := st.nodes.getD k default
  if isCombinatorN n then
    .ok (st.ins (k + 1) toInsert, k + 1)
  else if isTagN n then
    .error .alreadyContainsTag
  else if isUniversalN n then
    .ok ({ st with nodes := st.nodes.set k toInsert }, k)
  else
    match k with
    | 0 => .ok (st.unshift toInsert, 0)
    | k' + 1 => tagScanGo st k' toInsert

/-- Embedding of safeInsertTag: inserts a tag into the compound containing
the anchor node (at position anchor), scanning backward. -/
def safeInsertTag (st : MSt) (anchor : Nat) (toInsert : SNode) : Except Err (MSt × Nat) :=
  tagScanGo st anchor toInsert

/-- Embedding of safeInsert: inserts toInsert into the compound containing
the anchor node (at position anchor).  Combinators and comments are rejected;
tags delegate to safeInsertTag; otherwise the node lands immediately before
the first combinator or pseudo-element found scanning forward from the
anchor (appending at the end when none is found), failing when that boundary
and toInsert are both pseudo-elements.  Returns the new state and the
position at which toInsert landed. -/
def safeInsert (st : MSt) (anchor : Nat) (toInsert : SNode) : Except Err (MSt × Nat) :=
  if isCombinatorN toInsert || isCommentN toInsert then
    .error (.cannotInsert (if isCombinatorN toInsert then "combinator" else "comment"))
  else if isTagN toInsert then
    safeInsertTag st anchor toInsert
  else
    match scanFwd st.nodes anchor with
    | some j =>
      if isPseudoElementN (st.nodes.getD j default) && isPseudoElementN toInsert then
        .error .alreadyContainsPseudoElement
      else
        .ok (st.ins j toInsert, j)
    | none => .ok (st.push toInsert, st.nodes.length)

/-- Loop of safeInsertAll over the nodes after the first: each node threads
after the previous insertion point (pos).  When the first inserted node was a
tag, the second node re-anchors through safeInsert. -/
def safeInsertAllLoop (st : MSt) (pos : Nat) (firstIsTag : Bool) (i : Nat)
    (rest : List SNode) : Except Err MSt :=
  match rest with
  | [] => .ok st
  | nodeToInsert :: rest' =>
    if isCombinatorN nodeToInsert then
      .error .containsCombinator
    else if isPseudoElementN nodeToInsert &&
        (match st.nodes.get? (pos + 1) with
         | some m => isPseudoElementN m
         | none => false) then
      .error .alreadyContainsPseudoElement
    else if i == 1 && firstIsTag then
      match safeInsert st pos nodeToInsert with
      | .error e => .error e
      | .ok (st', pos') => safeInsertAllLoop st' pos' firstIsTag (i + 1) rest'
    else
      safeInsertAllLoop (st.ins (pos + 1) nodeToInsert) (pos + 1) firstIsTag (i + 1) rest'

/-- Body of safeInsertAll after its two early returns: insert the first node
through safeInsert and thread the rest after it. -/
def safeInsertAllCore (st : MSt) (anchor : Nat) (toInsert : List SNode) :
    Except Err MSt :=
  match toInsert with
  | [] => .ok st
  | first :: rest =>
    match safeInsert st anchor first with
    | .error e => .error e
    | .ok (st1, pos) => safeInsertAllLoop st1 pos (isTagN first) 1 rest

/-- In-repo entry of safeInsertAll used when the container of the anchor is a
different object from toInsert (true at every internal call site): only the
empty check applies before the insertion loop. -/
def safeInsertAllM (st : MSt) (anchor : Nat) (toInsert : List SNode) :
    Except Err MSt :=
  if toInsert.isEmpty then .ok st else safeInsertAllCore st anchor toInsert

/-- Selector object with identity: oid models JavaScript reference identity
(two Selector objects are the same object exactly when their oids are equal).
-/
structure SelObj where
  oid : Nat
  nodes : List SNode

/-- Embedding of safeInsertAll at its interface: the anchor node's parent
container and toInsert are Selector objects; when they are the same object,
or toInsert is empty, the call returns without modifying anything. -/
def safeInsertAll (container : SelObj) (anchor : Nat) (toInsert : SelObj) :
    Except Err (List SNode) :=
  if container.oid == toInsert.oid then
    .ok container.nodes
  else if toInsert.nodes.length == 0 then
    .ok container.nodes
  else
    (safeInsertAllCore ⟨container.nodes, 0, 0⟩ anchor toInsert.nodes).map MSt.nodes

/-! Error context walk (throwFor). -/

/-- Entry of the upward parent chain at a given height: the root container, a
regular node, or missing (chain broken / detached). -/
inductive UpEntry where
  | root
  | other
  | missing
deriving Repr, DecidableEq

/-- Error value produced by throwFor: either a generic context-free error or
a root-attributed error carrying source position. -/
inductive ThrownErr where
  | generic (msg : String)
  | attributed (msg : String)
deriving Repr, DecidableEq

/-- Loop of throwFor: at height h (which equals the source's count), if the
current entry is the root, throw the attributed error; otherwise, when the
entry is missing or the count exceeds 100, throw the generic error; else step
to the parent. -/
def throwForGo (chain : Nat → UpEntry) (msg : String) (h : Nat) : ThrownErr :=
  match chain h with
  | .root => .attributed msg
  | .missing => .generic msg
  | .other =>
    if h > 100 then .generic msg
    else throwForGo chain msg (h + 1)
termination_by 101 - h

/-- Embedding of throwFor on the upward parent chain of the error site. -/
def throwFor (chain : Nat → UpEntry) (msg : String) : ThrownErr :=
  throwForGo chain msg 0

/-- Modelled from the spec side: the parent chain reaches a root node within
the bounded number of upward hops, every entry below it being an ordinary
node. -/
def specReachesRoot (chain : Nat → UpEntry) : Bool :=
  (List.range 102).any fun h =>
    (chain h == .root) && (List.range h).all fun h2 => chain h2 == .other

/-! Host-context rewriter. -/

/-- Fresh bare :host pseudo, as hostPseudo() builds it. -/
def hostPseudoN : SNode := .pseudo ":host" []

/-- Descendant combinator node. -/
def descComb : SNode := .comb " "

/-- An :UNSCOPED pseudo wrapping the given selector, as unscoped() builds it.
-/
def unscopedN (sel : List SNode) : SNode := .pseudo ":UNSCOPED" [sel]

/-- Collection loop of rewriteHostContext over one selector: walks the nodes
left to right tracking the index of the current compound's first node
(currentCompoundIndex, reset to index+1 at each combinator); a
:-acx-global-context pseudo is renamed :UNSCOPED in place; a :host-context
pseudo is collected and replaced in place with a bare :host, recording the
compound index of the first one.  Each in-place replacement is one-for-one,
so the each loop is a plain indexed traversal.  Returns the rewritten
selector, the collected :host-context nodes, and the recorded compound
index. -/
def collectGo (i : Nat) (cur : Nat) (idx : Option Nat) (acc : List SNode)
    (rest : List SNode) : List SNode × List SNode × Option Nat :=
  match rest with
  | [] => (acc.reverse, [], idx)
  | node :: rest' =>
    let cur' := if isCombinatorN node then i + 1 else cur
    match node with
    | .pseudo v args =>
      if v == ":-acx-global-context" then
        let (outSel, collected, idxOut) :=
          collectGo (i + 1) cur' idx (.pseudo ":UNSCOPED" args :: acc) rest'
        (outSel, collected, idxOut)
      else if v == ":host-context" then
        let idx' := if idx.isNone then some cur' else idx
        let (outSel, collected, idxOut) :=
          collectGo (i + 1) cur' idx' (hostPseudoN :: acc) rest'
        (outSel, .pseudo v args :: collected, idxOut)
      else
        let (outSel, collected, idxOut) := collectGo (i + 1) cur' idx (node :: acc) rest'
        (outSel, collected, idxOut)
    | _ =>
      let (outSel, collected, idxOut) := collectGo (i + 1) cur' idx (node :: acc) rest'
      (outSel, collected, idxOut)

/-- Collection pass of rewriteHostContext for one selector. -/
def collectHostContext (sel : List SNode) : List SNode × List SNode × Option Nat :=
  collectGo 0 0 none [] sel

/-- Number of direct :host-context pseudo children of a selector. -/
def hostContextCount (sel : List SNode) : Nat :=
  sel.countP fun n => isPseudoN n && pseudoVal n == ":host-context"

/-- First child selector of a pseudo node (node.first); dereferencing it on a
node without children is a crash. -/
def nodeFirst (n : SNode) : Except Err (List SNode) :=
  match n with
  | .pseudo _ (a :: _) => .ok a
  | _ => .error (.crash "node.first is undefined")

/-- Merge step of getNodePermutations: insert the argument's nodes into the
compound, anchored at the compound's first node (clone[i].first). -/
def mergeIntoCompound (compound : List SNode) (arg : List SNode) :
    Except Err (List SNode) :=
  match compound with
  | [] => .error (.crash "compound.first is undefined")
  | _ =>
    (safeInsertAllM ⟨compound, 0, 0⟩ 0 arg).map MSt.nodes

/-- Placement loop of getNodePermutations for one existing arrangement, with
pre the compounds already passed and post the compounds still ahead: for each
position, place the argument as a new compound before it and merged into it,
and finally append it as a new trailing compound. -/
def placeArgGo (arg : List SNode) (pre post : List (List SNode)) :
    Except Err (List (List (List SNode))) :=
  match post with
  | [] => .ok [pre ++ [arg]]
  | c :: rest =>
    match mergeIntoCompound c arg with
    | .error e => .error e
    | .ok merged =>
      match placeArgGo arg (pre ++ [c]) rest with
      | .error e => .error e
      | .ok tailArrs =>
        .ok ((pre ++ arg :: c :: rest) :: (pre ++ merged :: rest) :: tailArrs)

/-- One round of the permutation recurrence: every existing arrangement of m
compounds yields 2m+1 new arrangements for the additional argument. -/
def placeArgAll (arg : List SNode) (perms : List (List (List SNode))) :
    Except Err (List (List (List SNode))) :=
  match perms with
  | [] => .ok []
  | p :: ps =>
    match placeArgGo arg [] p with
    | .error e => .error e
    | .ok outs =>
      match placeArgAll arg ps with
      | .error e => .error e
      | .ok rest => .ok (outs ++ rest)

/-- Fold of the permutation recurrence over the remaining arguments, in
order. -/
def placeArgs (args : List (List SNode)) (perms : List (List (List SNode))) :
    Except Err (List (List (List SNode))) :=
  match args with
  | [] => .ok perms
  | a :: rest =>
    match placeArgAll a perms with
    | .error e => .error e
    | .ok next => placeArgs rest next

/-- Wrap one arrangement of compounds into a node sequence: each compound is
placed inside an :UNSCOPED pseudo and compounds are joined by descendant
combinators (push pseudo then combinator for each compound, drop the trailing
combinator). -/
def wrapPermutation (compounds : List (List SNode)) : List SNode :=
  (compounds.flatMap fun c => [unscopedN c, descComb]).dropLast

/-- Embedding of getNodePermutations: seed with the last argument, fold the
placement recurrence over the remaining arguments in order, then wrap each
arrangement with :UNSCOPED and descendant combinators. -/
def getNodePermutations (hostContextNodes : List SNode) :
    Except Err (List (List SNode)) :=
  if hostContextNodes.isEmpty then .ok []
  else
    match hostContextNodes.mapM nodeFirst with
    | .error e => .error e
    | .ok hostContextArgs =>
      match hostContextArgs.getLast? with
      | none => .error (.crash "pop on empty array")
      | some lastArg =>
        match placeArgs hostContextArgs.dropLast [[lastArg]] with
        | .error e => .error e
        | .ok perms => .ok (perms.map wrapPermutation)

/-- Merged-form construction of createSelectorsFromPermutations for one
permutation: splice the last :UNSCOPED compound's nodes into the host
compound of the cloned selector, then splice the remaining permutation nodes
in at the host-context index. -/
def mergedForm (sel : List SNode) (permutation : List SNode)
    (hostContextIndex : Nat) : Except Err (List SNode) :=
  match permutation.getLast? with
  | none => .error (.crash "pop on empty permutation")
  | some lastNode =>
    match nodeFirst lastNode with
    | .error e => .error e
    | .ok lastFirst =>
      if hostContextIndex < sel.length then
        match
          (if lastFirst.length == 0 then .ok sel
           else (safeInsertAllCore ⟨sel, 0, 0⟩ hostContextIndex lastFirst).map MSt.nodes :
             Except Err (List SNode))
        with
        | .error e => .error e
        | .ok merged =>
          .ok (merged.take hostContextIndex ++ permutation.dropLast ++
            merged.drop hostContextIndex)
      else .error (.crash "selector.at(hostContextIndex) is undefined")

/-- Loop of createSelectorsFromPermutations: for each permutation emit the
descendant form then the merged form. -/
def createSelectorsGo (sel : List SNode) (perms : List (List SNode))
    (hostContextIndex : Nat) : Except Err (List (List SNode)) :=
  match perms with
  | [] => .ok []
  | permutation :: rest =>
    let nodesBefore := sel.take hostContextIndex
    let nodesAfter := sel.drop hostContextIndex
    let descendantForm := nodesBefore ++ permutation ++ descComb :: nodesAfter
    match mergedForm sel permutation hostContextIndex with
    | .error e => .error e
    | .ok mergedSel =>
      match createSelectorsGo sel rest hostContextIndex with
      | .error e => .error e
      | .ok out => .ok (descendantForm :: mergedSel :: out)

/-- Embedding of createSelectorsFromPermutations. -/
def createSelectorsFromPermutations (sel : List SNode)
    (perms : List (List SNode)) (hostContextIndex : Nat) :
    Except Err (List (List SNode)) :=
  if perms.isEmpty then .ok [sel]
  else createSelectorsGo sel perms hostContextIndex

/-- Per-selector body of rewriteHostContext: rewrite the global-context and
:host-context pseudos in place; when at least one :host-context was found,
replace the selector with one replacement selector per permutation variant.
-/
def rewriteHostContextSelector (sel : List SNode) :
    Except Err (List (List SNode)) :=
  let (sel', hcNodes, idx?) := collectHostContext sel
  match idx? with
  | none => .ok [sel']
  | some hostContextIndex =>
    match getNodePermutations hcNodes with
    | .error e => .error e
    | .ok perms => createSelectorsFromPermutations sel' perms hostContextIndex

/-! Ordered Bell numbers through the placement recurrence.  fubiniF j m is
the number of arrangements ultimately generated from one existing arrangement
of m compounds by j further arguments: each argument turns an arrangement of
m compounds into m+1 arrangements of m+1 compounds (insertions and the final
append) and m arrangements of m compounds (merges). -/

/-- Count of arrangements generated from one arrangement of m compounds by j
additional arguments. -/
def fubiniF : Nat → Nat → Nat
  | 0, _ => 1
  | j + 1, m => m * fubiniF j (m + 1) + m * fubiniF j m + fubiniF j (m + 1)

/-- Ordered Bell number of n, as the count of arrangements produced for n
collected arguments: one seed arrangement of one compound expanded by the
remaining n-1 arguments. -/
def orderedBell (n : Nat) : Nat := fubiniF (n - 1) 1

/-! Selector shimmer. -/

/-- Flags of the shimming pass. -/
structure ShimFlags where
  seenDeep : Bool
  seenHost : Bool
  ncc : Bool
deriving Repr

/-- Embedding of touchupCombinatorsAroundNgDeep for the node at position
ext: remove a preceding descendant combinator, or failing that a following
one. -/
def touchupNgDeep (st : MSt) : MSt :=
  let prevIsDesc := st.ext > 0 &&
    (match st.nodes.get? (st.ext - 1) with
     | some (.comb v) => v == " "
     | _ => false)
  if prevIsDesc then st.del (st.ext - 1)
  else
    let nextIsDesc :=
      match st.nodes.get? (st.ext + 1) with
      | some (.comb v) => v == " "
      | _ => false
    if nextIsDesc then st.del (st.ext + 1) else st

/-- Content-class insertion point of shimSelector: when the content class is
still owed and the next node is absent, a combinator or a pseudo-element (or
this is a leading pseudo-element), splice the content-scope attribute marker
at this node and clear the flag. -/
def contentBlock (content : String) (node : SNode) (st : MSt) (fl : ShimFlags) :
    Except Err (MSt × ShimFlags) :=
  if fl.ncc then
    let boundaryNext :=
      match st.nodes.get? (st.ext + 1) with
      | none => true
      | some nx => isCombinatorN nx || isPseudoElementN nx
    if boundaryNext || (st.ext == 0 && isPseudoElementN node) then
      match safeInsert st st.ext (.attr content) with
      | .error e => .error e
      | .ok (st', _) => .ok (st', { fl with ncc := false })
    else .ok (st, fl)
  else .ok (st, fl)

/-- Per-node callback of shimSelector's each loop, operating on the node at
position ext (which equals the iteration index on entry). -/
def shimCallback (content host : String) (legacy containsHost : Bool)
    (st : MSt) (fl : ShimFlags) : Except Err (MSt × ShimFlags) :=
  let node := st.nodes.getD st.ext default
  if isCombinatorN node then
    let sd := fl.seenDeep || (legacy && fl.seenHost)
    .ok (st, { seenDeep := sd, seenHost := fl.seenHost,
               ncc := !sd && (containsHost == fl.seenHost) })
  else
    let pseudoStep : Except Err (MSt × ShimFlags) :=
      if isPseudoN node then
        if pseudoVal node == ":host" then
          let fl' := { fl with seenHost := true, ncc := false }
          let afterArg : Except Err MSt :=
            match pseudoArgs node with
            | a :: _ => safeInsertAllM st st.ext a
            | [] => .ok st
          match afterArg with
          | .error e => .error e
          | .ok st1 =>
            if !fl.seenDeep then
              match safeInsert st1 st1.ext (.attr host) with
              | .error e => .error e
              | .ok (st2, _) => .ok (st2.del st2.ext, fl')
            else .ok (st1, fl')
        else if pseudoVal node == ":UNSCOPED" then
          match pseudoArgs node with
          | [] => .error (.crash "node.first is undefined")
          | a :: _ => .ok (st.replaceAt st.ext (.selNode a), { fl with ncc := false })
        else if pseudoVal node == "::ng-deep" then
          let st1 := touchupNgDeep st
          .ok (st1.del st1.ext, { fl with seenDeep := true, ncc := false })
        else if pseudoVal node == ":root" then
          .ok (st, { fl with ncc := false })
        else .ok (st, fl)
      else .ok (st, fl)
    match pseudoStep with
    | .error e => .error e
    | .ok (st1, fl1) => contentBlock content node st1 fl1

/-- Each loop of shimSelector, with fuel bounding the number of iterations
(the source loop is unbounded; every theorem quantifies over sufficient
fuel). -/
def shimGo (content host : String) (legacy containsHost : Bool) :
    Nat → List SNode → Int → ShimFlags → Except Err (List SNode)
  | 0, _, _, _ => .error .fuel
  | fuel + 1, nodes, iter, fl =>
    if iter < (nodes.length : Int) then
      match shimCallback content host legacy containsHost ⟨nodes, iter, iter.toNat⟩ fl with
      | .error e => .error e
      | .ok (st', fl') =>
        shimGo content host legacy containsHost fuel st'.nodes (st'.iter + 1) fl'
    else .ok nodes

/-- Embedding of shimSelector with the containsHostPseudo argument supplied
by the caller. -/
def shimSelector (fuel : Nat) (content host : String) (legacy containsHost : Bool)
    (sel : List SNode) : Except Err (List SNode) :=
  shimGo content host legacy containsHost fuel sel 0
    ⟨false, false, !containsHost⟩

/-- Test whether a selector has a direct :host pseudo child, as the plugin
computes it before shimming. -/
def containsHostPseudo (sel : List SNode) : Bool :=
  sel.any fun n => isPseudoN n && pseudoVal n == ":host"

/-- shimSelector as invoked per selector by the plugin. -/
def shimSelectorTop (fuel : Nat) (content host : String) (legacy : Bool)
    (sel : List SNode) : Except Err (List SNode) :=
  shimSelector fuel content host legacy (containsHostPseudo sel) sel

/-! Rule orchestrator (the Once hook) over a postcss rule tree. -/

/-- Child of a style rule: a declaration (opaque text) or a comment. -/
inductive RuleChild where
  | decl (text : String)
  | comment (text : String)
deriving Repr, DecidableEq

/-- Style rule: a selector list (held in parsed form; parsing and lossless
serialization are the external collaborator) and a body. -/
structure CssRule where
  selector : List (List SNode)
  body : List RuleChild

/-- Node of the stylesheet tree. -/
inductive CssNode where
  | rule (r : CssRule)
  | atRule (name params : String) (children : List CssNode)
  | comment (text : String)

/-- At-rule names whose child rules are skipped. -/
def atRulesToSkip : List String := ["keyframes", "-webkit-keyframes"]

/-- Comment removal inside a rule body (root.walkComments removes every
comment node of the tree, including those inside rule bodies). -/
def stripRuleBody (body : List RuleChild) : List RuleChild :=
  body.filter fun c =>
    match c with
    | .comment _ => false
    | _ => true

/-- Comment removal over the stylesheet tree. -/
def stripCssNodes : List CssNode → List CssNode
  | [] => []
  | .comment _ :: rest => stripCssNodes rest
  | .rule r :: rest => .rule ⟨r.selector, stripRuleBody r.body⟩ :: stripCssNodes rest
  | .atRule n p ch :: rest => .atRule n p (stripCssNodes ch) :: stripCssNodes rest

/-- Root-level each of rewriteHostContext: each selector is replaced by its
replacement selectors; the container each loop does not revisit replacement
nodes, so the loop is a flat map over the original selectors. -/
def rewriteHostContextRoot : List (List SNode) → Except Err (List (List SNode))
  | [] => .ok []
  | s :: rest =>
    match rewriteHostContextSelector s with
    | .error e => .error e
    | .ok out =>
      match rewriteHostContextRoot rest with
      | .error e => .error e
      | .ok rest' => .ok (out ++ rest')

/-- Shimming each selector of a selector list, as the plugin's processSync
callback does after the host-context rewrite. -/
def shimRoot (fuel : Nat) (content host : String) (legacy : Bool) :
    List (List SNode) → Except Err (List (List SNode))
  | [] => .ok []
  | s :: rest =>
    match shimSelectorTop fuel content host legacy s with
    | .error e => .error e
    | .ok s' =>
      match shimRoot fuel content host legacy rest with
      | .error e => .error e
      | .ok rest' => .ok (s' :: rest')

/-- Selector transform applied to a rule's selector list. -/
def transformSelectorList (fuel : Nat) (content host : String) (legacy : Bool)
    (sels : List (List SNode)) : Except Err (List (List SNode)) :=
  match rewriteHostContextRoot sels with
  | .error e => .error e
  | .ok rew => shimRoot fuel content host legacy rew

/-- Rule walk of the Once hook: a rule whose immediate parent is an at-rule
on the skip-list is left untouched; any other rule has its selector list
transformed. -/
def processCssNodes (fuel : Nat) (content host : String) (legacy : Bool)
    (parent : Option String) : List CssNode → Except Err (List CssNode)
  | [] => .ok []
  | .rule r :: rest =>
    let skip :=
      match parent with
      | some nm => atRulesToSkip.contains nm
      | none => false
    let newRule : Except Err CssRule :=
      if skip then .ok r
      else
        match transformSelectorList fuel content host legacy r.selector with
        | .error e => .error e
        | .ok sel' => .ok ⟨sel', r.body⟩
    match newRule with
    | .error e => .error e
    | .ok r' =>
      match processCssNodes fuel content host legacy parent rest with
      | .error e => .error e
      | .ok rest' => .ok (.rule r' :: rest')
  | .atRule n p ch :: rest =>
    match processCssNodes fuel content host legacy (some n) ch with
    | .error e => .error e
    | .ok ch' =>
      match processCssNodes fuel content host legacy parent rest with
      | .error e => .error e
      | .ok rest' => .ok (.atRule n p ch' :: rest')
  | .comment t :: rest =>
    match processCssNodes fuel content host legacy parent rest with
    | .error e => .error e
    | .ok rest' => .ok (.comment t :: rest')

/-- Embedding of the plugin's Once hook: remove all comments, then process
every rule, skipping rules nested directly in a keyframes-like at-rule. -/
def onceTransform (fuel : Nat) (content host : String) (legacy : Bool)
    (root : List CssNode) : Except Err (List CssNode) :=
  processCssNodes fuel content host legacy none (stripCssNodes root)

/-! Serialization (standing for the external lossless stringifier: equal
trees serialize to equal bytes, and a changed node changes its bytes). -/

mutual

/-- Serialization of one selector node. -/
def serSNode : SNode → String
  | .tag v => v
  | .universal => "*"
  | .cls v => "." ++ v
  | .id v => "#" ++ v
  | .attr n => "[" ++ n ++ "]"
  | .comb v => v
  | .comment t => "/*" ++ t ++ "*/"
  | .selNode ns => serSList ns
  | .pseudo v args =>
    v ++ (match args with
          | [] => ""
          | _ => "(" ++ serSArgs args ++ ")")

/-- Serialization of a pseudo's argument selectors, comma separated. -/
def serSArgs : List (List SNode) → String
  | [] => ""
  | [a] => serSList a
  | a :: rest => serSList a ++ "," ++ serSArgs rest

/-- Serialization of a selector's node list. -/
def serSList : List SNode → String
  | [] => ""
  | n :: rest => serSNode n ++ serSList rest

end

/-- Serialization of a selector list, comma separated. -/
def serSelectorList : List (List SNode) → String
  | [] => ""
  | [s] => serSList s
  | s :: rest => serSList s ++ "," ++ serSelectorList rest

/-- Serialization of a rule body child. -/
def serRuleChild : RuleChild → String
  | .decl t => t ++ ";"
  | .comment t => "/*" ++ t ++ "*/"

/-- Serialization of a rule body. -/
def serRuleBody : List RuleChild → String
  | [] => ""
  | c :: rest => serRuleChild c ++ serRuleBody rest

/-- Serialization of a style rule. -/
def serRule (r : CssRule) : String :=
  serSelectorList r.selector ++ "\x7b" ++ serRuleBody r.body ++ "\x7d"

/-- Serialization of the stylesheet tree. -/
def serCssNodes : List CssNode → String
  | [] => ""
  | .rule r :: rest => serRule r ++ serCssNodes rest
  | .atRule n p ch :: rest =>
    "@" ++ n ++ " " ++ p ++ "\x7b" ++ serCssNodes ch ++ "\x7d" ++ serCssNodes rest
  | .comment t :: rest => "/*" ++ t ++ "*/" ++ serCssNodes rest

/-! Theorems. -/

/-- Test for a failed Except result. -/
def isErr {α : Type} : Except Err α → Bool
  | .error _ => true
  | .ok _ => false

/-- throwForGo yields the generic or the attributed error with the given
message, nothing else. -/
theorem throwForGo_cases (chain : Nat → UpEntry) (msg : String) :
    ∀ d h, 102 ≤ h + d →
      throwForGo chain msg h = .generic msg ∨ throwForGo chain msg h = .attributed msg := by
  intro d
  induction d with
  | zero =>
    intro h hd
    rw [throwForGo]
    cases hc : chain h with
    | root => exact Or.inr rfl
    | missing => exact Or.inl rfl
    | other =>
      have : h > 100 := by omega
      simp [this]
  | succ d ih =>
    intro h hd
    rw [throwForGo]
    cases hc : chain h with
    | root => exact Or.inr rfl
    | missing => exact Or.inl rfl
    | other =>
      by_cases hh : h > 100
      · simp [hh]
      · simpa [hh] using ih (h + 1) (by omega)

/-- Characterization of throwForGo's attributed outcome: a root entry is
reached at some height k between h and 101 with only ordinary entries in
between. -/
theorem throwForGo_attributed_iff (chain : Nat → UpEntry) (msg : String) :
    ∀ d h, 102 ≤ h + d → h ≤ 101 →
      (throwForGo chain msg h = .attributed msg ↔
        ∃ k, h ≤ k ∧ k ≤ 101 ∧ chain k = .root ∧
          ∀ j, h ≤ j → j < k → chain j = .other) := by
  intro d
  induction d with
  | zero => intro h hd hb; omega
  | succ d ih =>
    intro h hd hb
    rw [throwForGo]
    cases hc : chain h with
    | root =>
      simp only [true_iff]
      exact ⟨h, le_refl h, hb, hc, fun j hj hjk => absurd hjk (by omega)⟩
    | missing =>
      constructor
      · intro heq; cases heq
      · rintro ⟨k, hk1, hk2, hk3, hk4⟩
        rcases Nat.eq_or_lt_of_le hk1 with h1 | h1
        · rw [← h1] at hk3; rw [hc] at hk3; cases hk3
        · have := hk4 h (le_refl h) h1
          rw [hc] at this; cases this
    | other =>
      by_cases hh : h > 100
      · have h101 : h = 101 := by omega
        simp only [hh, if_true]
        constructor
        · intro heq; cases heq
        · rintro ⟨k, hk1, hk2, hk3, hk4⟩
          have : k = 101 := by omega
          rw [this, ← h101] at hk3
          rw [hc] at hk3; cases hk3
      · simp only [hh, if_false]
        rw [ih (h + 1) (by omega) (by omega)]
        constructor
        · rintro ⟨k, hk1, hk2, hk3, hk4⟩
          refine ⟨k, by omega, hk2, hk3, fun j hj hjk => ?_⟩
          rcases Nat.eq_or_lt_of_le hj with h1 | h1
          · rw [← h1]; exact hc
          · exact hk4 j h1 hjk
        · rintro ⟨k, hk1, hk2, hk3, hk4⟩
          have hkh : h ≠ k := by
            intro heq; rw [← heq] at hk3; rw [hc] at hk3; cases hk3
          exact ⟨k, by omega, hk2, hk3, fun j hj hjk => hk4 j (by omega) hjk⟩

/-- Claim C9: when an error is raised for a node whose upward parent chain
does not reach a root node within the bounded number of hops, a generic
context-free error carrying only the message is thrown instead of a
root-attributed error; when a root is reachable within the bound, the
attributed error is thrown. -/
theorem throwFor_generic_iff_unreachable (chain : Nat → UpEntry) (msg : String) :
    (throwFor chain msg = .attributed msg ↔ specReachesRoot chain = true) ∧
    (throwFor chain msg = .generic msg ↔ specReachesRoot chain = false) := by
  have hiff : throwFor chain msg = .attributed msg ↔ specReachesRoot chain = true := by
    rw [throwFor, throwForGo_attributed_iff chain msg 102 0 (by omega) (by omega)]
    unfold specReachesRoot
    simp only [List.any_eq_true, List.all_eq_true, List.mem_range, beq_iff_eq,
      Bool.and_eq_true]
    constructor
    · rintro ⟨k, _, hk2, hk3, hk4⟩
      exact ⟨k, by omega, hk3, fun j hj => hk4 j (Nat.zero_le j) hj⟩
    · rintro ⟨k, hk1, hk2, hk3⟩
      exact ⟨k, Nat.zero_le k, by omega, hk2, fun j _ hj => hk3 j hj⟩
  refine ⟨hiff, ?_⟩
  rcases throwForGo_cases chain msg 102 0 (by omega) with hg | ha
  · rw [throwFor] at *
    rw [hg]
    simp only [true_iff]
    rcases hsr : specReachesRoot chain with _ | _
    · rfl
    · exfalso
      have := hiff.mpr hsr
      rw [hg] at this
      cases this
  · rw [throwFor] at *
    rw [ha]
    have hsr := hiff.mp ha
    rw [hsr]
    constructor
    · intro heq; cases heq
    · intro heq; cases heq

/-- Claim C10: calling safeInsertAll with a toInsert selector that is empty,
or that is the very container holding the anchor node, returns without
modifying the selector tree: a silent no-op, not an error. -/
theorem safeInsertAll_noop (c : SelObj) (i : Nat) (t : SelObj) :
    safeInsertAll c i c = .ok c.nodes ∧
    (t.nodes = [] → safeInsertAll c i t = .ok c.nodes) := by
  constructor
  · unfold safeInsertAll
    simp
  · intro ht
    unfold safeInsertAll
    by_cases hoid : c.oid == t.oid
    · simp [hoid]
    · simp [hoid, ht]

/-- Witness for C10 at a concrete container and an empty toInsert. -/
theorem safeInsertAll_noop_witness :
    safeInsertAll ⟨0, [.cls "a"]⟩ 0 ⟨0, [.cls "a"]⟩ = .ok [.cls "a"] ∧
    (⟨1, []⟩ : SelObj).nodes = [] ∧
    safeInsertAll ⟨0, [.cls "a"]⟩ 0 ⟨1, []⟩ = .ok [.cls "a"] :=
  ⟨(safeInsertAll_noop ⟨0, [.cls "a"]⟩ 0 ⟨1, []⟩).1, rfl,
    (safeInsertAll_noop ⟨0, [.cls "a"]⟩ 0 ⟨1, []⟩).2 rfl⟩

/-- Unfolding equation of the forward scan at an absolute position. -/
theorem scanFwd_unfold (nodes : List SNode) (i : Nat) :
    scanFwd nodes i =
      if i < nodes.length then
        (if isBoundaryN (nodes.getD i default) then some i else scanFwd nodes (i + 1))
      else none := by
  by_cases h : i < nodes.length
  · rw [if_pos h, scanFwd, List.drop_eq_getElem_cons h, scanFwdAux,
      List.getD_eq_getElem nodes default h]
    rfl
  · rw [if_neg h, scanFwd, List.drop_eq_nil_of_le (by omega), scanFwdAux]

/-- Characterization of the forward scan: it returns exactly the first
position at or after i holding a combinator or pseudo-element, and none when
no such position exists. -/
theorem scanFwd_spec (nodes : List SNode) :
    ∀ d i, nodes.length ≤ i + d →
      (∀ k, scanFwd nodes i = some k ↔
        (i ≤ k ∧ k < nodes.length ∧ isBoundaryN (nodes.getD k default) = true ∧
          ∀ j, i ≤ j → j < k → isBoundaryN (nodes.getD j default) = false)) ∧
      (scanFwd nodes i = none ↔
        ∀ j, i ≤ j → j < nodes.length → isBoundaryN (nodes.getD j default) = false) := by
  intro d
  induction d with
  | zero =>
    intro i hd
    rw [scanFwd_unfold]
    have hin : ¬ i < nodes.length := by omega
    rw [if_neg hin]
    constructor
    · intro k
      constructor
      · intro h; cases h
      · rintro ⟨h1, h2, _, _⟩; omega
    · simp only [true_iff]
      intro j hj1 hj2; omega
  | succ d ih =>
    intro i hd
    rw [scanFwd_unfold]
    by_cases hin : i < nodes.length
    · rw [if_pos hin]
      by_cases hb : isBoundaryN (nodes.getD i default) = true
      · rw [if_pos hb]
        constructor
        · intro k
          constructor
          · intro h
            cases h
            exact ⟨le_refl i, hin, hb, fun j hj1 hj2 => absurd hj2 (by omega)⟩
          · rintro ⟨h1, h2, h3, h4⟩
            rcases Nat.eq_or_lt_of_le h1 with he | hl
            · rw [he]
            · have := h4 i (le_refl i) hl
              rw [hb] at this; cases this
        · constructor
          · intro h; cases h
          · intro h
            have := h i (le_refl i) hin
            rw [hb] at this; cases this
      · have hbf : isBoundaryN (nodes.getD i default) = false := by
          revert hb; cases isBoundaryN (nodes.getD i default) <;> simp
        rw [if_neg hb]
        obtain ⟨ihs, ihn⟩ := ih (i + 1) (by omega)
        constructor
        · intro k
          rw [ihs k]
          constructor
          · rintro ⟨h1, h2, h3, h4⟩
            refine ⟨by omega, h2, h3, fun j hj1 hj2 => ?_⟩
            rcases Nat.eq_or_lt_of_le hj1 with he | hl
            · rw [← he]; exact hbf
            · exact h4 j hl hj2
          · rintro ⟨h1, h2, h3, h4⟩
            have : i ≠ k := by
              intro he; rw [← he] at h3; rw [hbf] at h3; cases h3
            exact ⟨by omega, h2, h3, fun j hj1 hj2 => h4 j (by omega) hj2⟩
        · rw [ihn]
          constructor
          · intro h j hj1 hj2
            rcases Nat.eq_or_lt_of_le hj1 with he | hl
            · rw [← he]; exact hbf
            · exact h j hl hj2
          · intro h j hj1 hj2
            exact h j (by omega) hj2
    · rw [if_neg hin]
      constructor
      · intro k
        constructor
        · intro h; cases h
        · rintro ⟨h1, h2, _, _⟩; omega
      · simp only [true_iff]
        intro j hj1 hj2; omega

/-- Claim C3: the safe-insert operation fails exactly when the node to
insert is a combinator or a comment, or the first combinator-or-pseudo-
element boundary found scanning forward from the anchor is a pseudo-element
while the node to insert is also a pseudo-element; otherwise a non-Tag node
is inserted immediately before that boundary, appended at the container end
when no boundary exists.  The second conjunct pins down scanFwd as the first
boundary at or after the anchor. -/
theorem safeInsert_spec (st : MSt) (i : Nat) (n : SNode)
    (hi : i < st.nodes.length) (hnt : isTagN n = false) :
    (isErr (safeInsert st i n) = true ↔
      (isCombinatorN n = true ∨ isCommentN n = true ∨
        ∃ k, scanFwd st.nodes i = some k ∧
          isPseudoElementN (st.nodes.getD k default) = true ∧
          isPseudoElementN n = true)) ∧
    (∀ k, scanFwd st.nodes i = some k ↔
      (i ≤ k ∧ k < st.nodes.length ∧ isBoundaryN (st.nodes.getD k default) = true ∧
        ∀ j, i ≤ j → j < k → isBoundaryN (st.nodes.getD j default) = false)) ∧
    (∀ k, scanFwd st.nodes i = some k → isCombinatorN n = false →
      isCommentN n = false →
      ¬(isPseudoElementN (st.nodes.getD k default) = true ∧ isPseudoElementN n = true) →
      (safeInsert st i n).map (fun p => (p.1.nodes, p.2)) =
        .ok (st.nodes.take k ++ n :: st.nodes.drop k, k)) ∧
    (scanFwd st.nodes i = none → isCombinatorN n = false → isCommentN n = false →
      (safeInsert st i n).map (fun p => (p.1.nodes, p.2)) =
        .ok (st.nodes ++ [n], st.nodes.length)) := by
  refine ⟨?_, (scanFwd_spec st.nodes (st.nodes.length + 1) i (by omega)).1, ?_, ?_⟩
  · unfold safeInsert
    by_cases hc : isCombinatorN n = true
    · simp [hc, isErr]
    · by_cases hcm : isCommentN n = true
      · have : (isCombinatorN n || isCommentN n) = true := by
          rw [hcm]; simp
        simp only [this, if_true]
        simp [isErr, hc, hcm]
      · have hcc : (isCombinatorN n || isCommentN n) = false := by
          revert hc hcm
          cases isCombinatorN n <;> cases isCommentN n <;> simp
        simp only [hcc, Bool.false_eq_true, if_false, hnt]
        rcases hscan : scanFwd st.nodes i with _ | k
        · simp only [isErr]
          constructor
          · intro h; cases h
          · rintro (h | h | ⟨k, hk, _, _⟩)
            · rw [h] at hc; exact absurd rfl hc
            · rw [h] at hcm; exact absurd rfl hcm
            · simp [hscan] at hk
        · by_cases hpe : (isPseudoElementN (st.nodes.getD k default) &&
              isPseudoElementN n) = true
          · simp only [hpe, if_true, isErr, true_iff]
            refine Or.inr (Or.inr ⟨k, rfl, ?_, ?_⟩)
            · exact (Bool.and_eq_true _ _ |>.mp hpe).1
            · exact (Bool.and_eq_true _ _ |>.mp hpe).2
          · have hpef : (isPseudoElementN (st.nodes.getD k default) &&
                isPseudoElementN n) = false := by
              revert hpe; cases isPseudoElementN (st.nodes.getD k default) <;>
                cases isPseudoElementN n <;> simp
            simp only [hpef, Bool.false_eq_true, if_false, isErr]
            constructor
            · intro h; cases h
            · rintro (h | h | ⟨k2, hk2, hk3, hk4⟩)
              · rw [h] at hc; exact absurd rfl hc
              · rw [h] at hcm; exact absurd rfl hcm
              · cases hk2
                rw [hk3, hk4] at hpef
                simp at hpef
  · intro k hscan hcf hcmf hnpe
    unfold safeInsert
    have hcc : (isCombinatorN n || isCommentN n) = false := by
      rw [hcf, hcmf]; rfl
    simp only [hcc, Bool.false_eq_true, if_false, hnt, hscan]
    have hpef : (isPseudoElementN (st.nodes.getD k default) &&
        isPseudoElementN n) = false := by
      rcases h1 : isPseudoElementN (st.nodes.getD k default) with _ | _
      · rfl
      · rcases h2 : isPseudoElementN n with _ | _
        · rfl
        · exact absurd ⟨h1, h2⟩ hnpe
    simp only [hpef, Bool.false_eq_true, if_false]
    rfl
  · intro hscan hcf hcmf
    unfold safeInsert
    have hcc : (isCombinatorN n || isCommentN n) = false := by
      rw [hcf, hcmf]; rfl
    simp only [hcc, Bool.false_eq_true, if_false, hnt, hscan]
    rfl

/-- Witness for C3 at a concrete compound: inserting an attribute into
".a .b" anchored at .a lands immediately before the descendant combinator. -/
theorem safeInsert_spec_witness :
    0 < (⟨[.cls "a", .comb " ", .cls "b"], 0, 0⟩ : MSt).nodes.length ∧
    isTagN (.attr "c") = false ∧
    (safeInsert ⟨[.cls "a", .comb " ", .cls "b"], 0, 0⟩ 0 (.attr "c")).map
        (fun p => (p.1.nodes, p.2)) =
      .ok ([.cls "a", .attr "c", .comb " ", .cls "b"], 1) := by
  refine ⟨by decide, rfl, ?_⟩
  have h := (safeInsert_spec ⟨[.cls "a", .comb " ", .cls "b"], 0, 0⟩ 0 (.attr "c")
    (by decide) rfl).2.2.1 1 rfl rfl rfl (by decide)
  simpa using h

/-- Stop test of the backward tag scan: a combinator, an existing tag, or a
universal selector. -/
def isStopN (n : SNode) : Bool :=
  isCombinatorN n || isTagN n || isUniversalN n

/-- Specification-side first stop scanning backward from position i. -/
def backStop (nodes : List SNode) (i : Nat) : Option Nat :=
  ((List.range (i + 1)).reverse).find? fun j => isStopN (nodes.getD j default)

/-- Unfolding of backStop one step down. -/
theorem backStop_unfold (nodes : List SNode) (i : Nat) :
    backStop nodes (i + 1) =
      if isStopN (nodes.getD (i + 1) default) then some (i + 1)
      else backStop nodes i := by
  unfold backStop
  rw [List.range_succ, List.reverse_append, List.reverse_singleton,
    List.singleton_append]
  by_cases h : isStopN (nodes.getD (i + 1) default) = true
  · rw [if_pos h]
    simp only [List.find?_cons]
    rw [h]
  · have hf : isStopN (nodes.getD (i + 1) default) = false := by
      revert h; cases isStopN (nodes.getD (i + 1) default) <;> simp
    rw [if_neg h]
    simp only [List.find?_cons]
    rw [hf]

/-- Base case of backStop. -/
theorem backStop_zero (nodes : List SNode) :
    backStop nodes 0 =
      if isStopN (nodes.getD 0 default) then some 0 else none := by
  unfold backStop
  by_cases h : isStopN (nodes.getD 0 default) = true
  · rw [if_pos h]
    rw [show (List.range 1).reverse = [0] from rfl]
    simp only [List.find?_cons]
    rw [h]
  · have hf : isStopN (nodes.getD 0 default) = false := by
      revert h; cases isStopN (nodes.getD 0 default) <;> simp
    rw [if_neg h]
    rw [show (List.range 1).reverse = [0] from rfl]
    simp only [List.find?_cons]
    rw [hf]
    rfl

/-- backStop finds exactly the largest stop position at or below i. -/
theorem backStop_spec (nodes : List SNode) :
    ∀ i, (∀ j, backStop nodes i = some j ↔
        (j ≤ i ∧ isStopN (nodes.getD j default) = true ∧
          ∀ j2, j < j2 → j2 ≤ i → isStopN (nodes.getD j2 default) = false)) ∧
      (backStop nodes i = none ↔
        ∀ j, j ≤ i → isStopN (nodes.getD j default) = false) := by
  intro i
  induction i with
  | zero =>
    rw [backStop_zero]
    by_cases h : isStopN (nodes.getD 0 default) = true
    · rw [if_pos h]
      constructor
      · intro j
        constructor
        · intro he; cases he
          exact ⟨le_refl 0, h, fun j2 h1 h2 => by omega⟩
        · rintro ⟨h1, h2, _⟩
          have : j = 0 := by omega
          rw [this]
      · constructor
        · intro he; cases he
        · intro hall
          have := hall 0 (le_refl 0)
          rw [h] at this; cases this
    · rw [if_neg h]
      have hf : isStopN (nodes.getD 0 default) = false := by
        revert h; cases isStopN (nodes.getD 0 default) <;> simp
      constructor
      · intro j
        constructor
        · intro he; cases he
        · rintro ⟨h1, h2, _⟩
          have : j = 0 := by omega
          rw [this] at h2; rw [hf] at h2; cases h2
      · simp only [true_iff]
        intro j hj
        have : j = 0 := by omega
        rw [this]; exact hf
  | succ i ih =>
    rw [backStop_unfold]
    by_cases h : isStopN (nodes.getD (i + 1) default) = true
    · rw [if_pos h]
      constructor
      · intro j
        constructor
        · intro he; cases he
          exact ⟨le_refl _, h, fun j2 h1 h2 => by omega⟩
        · rintro ⟨h1, h2, h3⟩
          rcases Nat.eq_or_lt_of_le h1 with he | hl
          · rw [he]
          · have := h3 (i + 1) hl (le_refl _)
            rw [h] at this; cases this
      · constructor
        · intro he; cases he
        · intro hall
          have := hall (i + 1) (le_refl _)
          rw [h] at this; cases this
    · rw [if_neg h]
      have hf : isStopN (nodes.getD (i + 1) default) = false := by
        revert h; cases isStopN (nodes.getD (i + 1) default) <;> simp
      obtain ⟨ihs, ihn⟩ := ih
      constructor
      · intro j
        rw [ihs j]
        constructor
        · rintro ⟨h1, h2, h3⟩
          refine ⟨by omega, h2, fun j2 hj1 hj2 => ?_⟩
          rcases Nat.eq_or_lt_of_le hj2 with he | hl
          · rw [he]; exact hf
          · exact h3 j2 hj1 (by omega)
        · rintro ⟨h1, h2, h3⟩
          have hne : j ≠ i + 1 := by
            intro he; rw [he] at h2; rw [hf] at h2; cases h2
          exact ⟨by omega, h2, fun j2 hj1 hj2 => h3 j2 hj1 (by omega)⟩
      · rw [ihn]
        constructor
        · intro hall j hj
          rcases Nat.eq_or_lt_of_le hj with he | hl
          · rw [he]; exact hf
          · exact hall j (by omega)
        · intro hall j hj
          exact hall j (by omega)

/-- Behavior of the backward tag-scan loop in terms of backStop. -/
theorem tagScanGo_spec (st : MSt) (t : SNode) :
    ∀ i, (backStop st.nodes i = none → tagScanGo st i t = .ok (st.unshift t, 0)) ∧
      (∀ j, backStop st.nodes i = some j →
        (isCombinatorN (st.nodes.getD j default) = true →
          tagScanGo st i t = .ok (st.ins (j + 1) t, j + 1)) ∧
        (isTagN (st.nodes.getD j default) = true →
          tagScanGo st i t = .error .alreadyContainsTag) ∧
        (isUniversalN (st.nodes.getD j default) = true →
          tagScanGo st i t = .ok ({ st with nodes := st.nodes.set j t }, j))) := by
  intro i
  induction i with
  | zero =>
    rw [backStop_zero]
    by_cases h : isStopN (st.nodes.getD 0 default) = true
    · rw [if_pos h]
      refine ⟨fun he => Option.noConfusion he, fun j he => ?_⟩
      cases he
      refine ⟨fun hc => ?_, fun ht => ?_, fun hu => ?_⟩
      · rw [tagScanGo]; rw [if_pos hc]
      · rw [tagScanGo]
        have hcf : isCombinatorN (st.nodes.getD 0 default) = false := by
          revert ht; cases st.nodes.getD 0 default <;> simp [isCombinatorN, isTagN]
        rw [if_neg (by rw [hcf]; exact Bool.false_ne_true), if_pos ht]
      · rw [tagScanGo]
        have hcf : isCombinatorN (st.nodes.getD 0 default) = false := by
          revert hu; cases st.nodes.getD 0 default <;>
            simp [isCombinatorN, isUniversalN]
        have htf : isTagN (st.nodes.getD 0 default) = false := by
          revert hu; cases st.nodes.getD 0 default <;> simp [isTagN, isUniversalN]
        rw [if_neg (by rw [hcf]; exact Bool.false_ne_true),
          if_neg (by rw [htf]; exact Bool.false_ne_true), if_pos hu]
    · rw [if_neg h]
      have hcf : isCombinatorN (st.nodes.getD 0 default) = false := by
        revert h; unfold isStopN
        cases isCombinatorN (st.nodes.getD 0 default) <;> simp
      have htf : isTagN (st.nodes.getD 0 default) = false := by
        revert h; unfold isStopN
        cases isTagN (st.nodes.getD 0 default) <;> simp
      have huf : isUniversalN (st.nodes.getD 0 default) = false := by
        revert h; unfold isStopN
        cases isUniversalN (st.nodes.getD 0 default) <;> simp
      refine ⟨fun _ => ?_, fun j he => Option.noConfusion he⟩
      rw [tagScanGo]
      rw [if_neg (by rw [hcf]; exact Bool.false_ne_true),
        if_neg (by rw [htf]; exact Bool.false_ne_true),
        if_neg (by rw [huf]; exact Bool.false_ne_true)]
  | succ i ih =>
    rw [backStop_unfold]
    by_cases h : isStopN (st.nodes.getD (i + 1) default) = true
    · rw [if_pos h]
      refine ⟨fun he => Option.noConfusion he, fun j he => ?_⟩
      cases he
      refine ⟨fun hc => ?_, fun ht => ?_, fun hu => ?_⟩
      · rw [tagScanGo]; rw [if_pos hc]
      · rw [tagScanGo]
        have hcf : isCombinatorN (st.nodes.getD (i + 1) default) = false := by
          revert ht; cases st.nodes.getD (i + 1) default <;>
            simp [isCombinatorN, isTagN]
        rw [if_neg (by rw [hcf]; exact Bool.false_ne_true), if_pos ht]
      · rw [tagScanGo]
        have hcf : isCombinatorN (st.nodes.getD (i + 1) default) = false := by
          revert hu; cases st.nodes.getD (i + 1) default <;>
            simp [isCombinatorN, isUniversalN]
        have htf : isTagN (st.nodes.getD (i + 1) default) = false := by
          revert hu; cases st.nodes.getD (i + 1) default <;>
            simp [isTagN, isUniversalN]
        rw [if_neg (by rw [hcf]; exact Bool.false_ne_true),
          if_neg (by rw [htf]; exact Bool.false_ne_true), if_pos hu]
    · rw [if_neg h]
      have hcf : isCombinatorN (st.nodes.getD (i + 1) default) = false := by
        revert h; unfold isStopN
        cases isCombinatorN (st.nodes.getD (i + 1) default) <;> simp
      have htf : isTagN (st.nodes.getD (i + 1) default) = false := by
        revert h; unfold isStopN
        cases isTagN (st.nodes.getD (i + 1) default) <;> simp
      have huf : isUniversalN (st.nodes.getD (i + 1) default) = false := by
        revert h; unfold isStopN
        cases isUniversalN (st.nodes.getD (i + 1) default) <;> simp
      have hstep : tagScanGo st (i + 1) t = tagScanGo st i t := by
        rw [tagScanGo]
        rw [if_neg (by rw [hcf]; exact Bool.false_ne_true),
          if_neg (by rw [htf]; exact Bool.false_ne_true),
          if_neg (by rw [huf]; exact Bool.false_ne_true)]
      rw [hstep]
      exact ih

/-- Claim C4: tag insertion scans backward from the anchor; a combinator
makes the tag land immediately after it (at the compound start), an existing
tag fails with the duplicate-type-selector error, a universal selector is
replaced in place, and reaching the container start prepends the tag.  It
fails exactly on the duplicate-tag case (in particular never on the
universal-replacement case).  The first conjunct pins down backStop as the
nearest stop at or below the anchor. -/
theorem safeInsertTag_spec (st : MSt) (i : Nat) (t : SNode)
    (hi : i < st.nodes.length) (ht : isTagN t = true) :
    (∀ j, backStop st.nodes i = some j ↔
      (j ≤ i ∧ isStopN (st.nodes.getD j default) = true ∧
        ∀ j2, j < j2 → j2 ≤ i → isStopN (st.nodes.getD j2 default) = false)) ∧
    (backStop st.nodes i = none →
      (safeInsertTag st i t).map (fun p => (p.1.nodes, p.2)) =
        .ok (t :: st.nodes, 0)) ∧
    (∀ j, backStop st.nodes i = some j →
      isCombinatorN (st.nodes.getD j default) = true →
      (safeInsertTag st i t).map (fun p => (p.1.nodes, p.2)) =
        .ok (st.nodes.take (j + 1) ++ t :: st.nodes.drop (j + 1), j + 1)) ∧
    (∀ j, backStop st.nodes i = some j →
      isUniversalN (st.nodes.getD j default) = true →
      (safeInsertTag st i t).map (fun p => (p.1.nodes, p.2)) =
        .ok (st.nodes.set j t, j)) ∧
    (isErr (safeInsertTag st i t) = true ↔
      ∃ j, backStop st.nodes i = some j ∧ isTagN (st.nodes.getD j default) = true) := by
  obtain ⟨hnone, hsome⟩ := tagScanGo_spec st t i
  refine ⟨(backStop_spec st.nodes i).1, ?_, ?_, ?_, ?_⟩
  · intro hbs
    rw [safeInsertTag, hnone hbs]
    rfl
  · intro j hbs hc
    rw [safeInsertTag, (hsome j hbs).1 hc]
    rfl
  · intro j hbs hu
    rw [safeInsertTag, (hsome j hbs).2.2 hu]
    rfl
  · constructor
    · intro herr
      rcases hbs : backStop st.nodes i with _ | j
      · rw [safeInsertTag, hnone hbs] at herr
        cases herr
      · have hstop : isStopN (st.nodes.getD j default) = true :=
          (((backStop_spec st.nodes i).1 j).mp hbs).2.1
        unfold isStopN at hstop
        rcases Bool.or_eq_true _ _ |>.mp hstop with h1 | h1
        · rcases Bool.or_eq_true _ _ |>.mp h1 with h2 | h2
          · rw [safeInsertTag, (hsome j hbs).1 h2] at herr
            cases herr
          · exact ⟨j, rfl, h2⟩
        · rw [safeInsertTag, (hsome j hbs).2.2 h1] at herr
          cases herr
    · rintro ⟨j, hbs, htag⟩
      rw [safeInsertTag, (hsome j hbs).2.1 htag]
      rfl

/-- Witness for C4 at a concrete compound: splicing a tag into a compound
holding a universal selector replaces the universal in place, without
failing. -/
theorem safeInsertTag_spec_witness :
    1 < (⟨[.universal, .cls "a"], 0, 0⟩ : MSt).nodes.length ∧
    isTagN (.tag "div") = true ∧
    (safeInsertTag ⟨[.universal, .cls "a"], 0, 0⟩ 1 (.tag "div")).map
        (fun p => (p.1.nodes, p.2)) =
      .ok ([.tag "div", .cls "a"], 0) := by
  refine ⟨by decide, rfl, ?_⟩
  have h := (safeInsertTag_spec ⟨[.universal, .cls "a"], 0, 0⟩ 1 (.tag "div")
    (by decide) rfl).2.2.2.1 0 (by rfl) rfl
  simpa using h

/-- Claim C5: shimming the selector :host(.x) (no host-context, no deep
region) with content class c and host class h produces .x[h]: the argument's
nodes are inlined into the compound, the host-scope attribute marker is
spliced in, the :host node is removed, and no descendant combinator is
introduced.  The statement holds for every content class, host class and
legacy flag, and for every sufficient iteration budget. -/
theorem shim_host_arg (contentClass hostClass : String) (legacy : Bool)
    (extra : Nat) :
    shimSelectorTop (extra + 4) contentClass hostClass legacy
      [.pseudo ":host" [[.cls "x"]]] = .ok [.cls "x", .attr hostClass] := rfl

/-- fubiniF is positive. -/
theorem fubiniF_pos : ∀ j m, 0 < fubiniF j m := by
  intro j
  induction j with
  | zero => intro m; rw [fubiniF]; omega
  | succ j ih =>
    intro m
    rw [fubiniF]
    have := ih (m + 1)
    omega

/-- mapM over Except preserves length on success. -/
theorem mapM_length {α β : Type} (f : α → Except Err β) :
    ∀ (l : List α) (l' : List β), l.mapM f = .ok l' → l'.length = l.length := by
  intro l
  induction l with
  | nil =>
    intro l' h
    simp only [List.mapM_nil, pure, Except.pure] at h
    cases h
    rfl
  | cons a rest ih =>
    intro l' h
    simp only [List.mapM_cons] at h
    rcases hfa : f a with e | b <;> rw [hfa] at h
    · simp only [bind, Except.bind] at h
      cases h
    · simp only [bind, Except.bind] at h
      rcases hrest : rest.mapM f with e2 | l2 <;> rw [hrest] at h
      · simp only [pure, Except.pure] at h
        cases h
      · simp only [pure, Except.pure] at h
        cases h
        simp [ih l2 hrest]

/-- Arrangement sum of one placement round, over one arrangement split as
pre ++ post of total compound count L: the generated arrangements, weighted
by fubiniF j of their compound count, sum to the recurrence value. -/
theorem placeArgGo_sum (j : Nat) (arg : List SNode) :
    ∀ (post pre : List (List SNode)) (out : List (List (List SNode))) (L : Nat),
      pre.length + post.length = L →
      placeArgGo arg pre post = .ok out →
      (out.map fun p => fubiniF j p.length).sum =
        post.length * (fubiniF j (L + 1) + fubiniF j L) + fubiniF j (L + 1) := by
  intro post
  induction post with
  | nil =>
    intro pre out L hL h
    rw [placeArgGo] at h
    cases h
    simp only [List.length_nil, Nat.add_zero] at hL
    have e1 : (pre ++ [arg]).length = L + 1 := by
      simp only [List.length_append, List.length_cons, List.length_nil]; omega
    simp only [List.map_cons, List.map_nil, List.sum_cons, List.sum_nil, e1,
      List.length_nil]
    omega
  | cons c rest ih =>
    intro pre out L hL h
    rw [placeArgGo] at h
    rcases hm : mergeIntoCompound c arg with e | merged <;> rw [hm] at h
    · cases h
    · rcases hrec : placeArgGo arg (pre ++ [c]) rest with e | tailArrs <;>
        rw [hrec] at h
      · cases h
      · cases h
        simp only [List.length_cons] at hL
        have hih := ih (pre ++ [c]) tailArrs L
          (by simp only [List.length_append, List.length_cons, List.length_nil]; omega)
          hrec
        simp only [List.map_cons, List.sum_cons]
        have e1 : (pre ++ arg :: c :: rest).length = L + 1 := by
          simp only [List.length_append, List.length_cons]; omega
        have e2 : (pre ++ merged :: rest).length = L := by
          simp only [List.length_append, List.length_cons]; omega
        rw [e1, e2, hih]
        simp only [List.length_cons]
        ring

/-- One placement round carries the weighted arrangement sum up one level of
the recurrence. -/
theorem placeArgAll_sum (j : Nat) (arg : List SNode) :
    ∀ (perms out : List (List (List SNode))),
      placeArgAll arg perms = .ok out →
      (out.map fun p => fubiniF j p.length).sum =
        (perms.map fun p => fubiniF (j + 1) p.length).sum := by
  intro perms
  induction perms with
  | nil =>
    intro out h
    rw [placeArgAll] at h
    cases h
    rfl
  | cons p ps ih =>
    intro out h
    rw [placeArgAll] at h
    rcases hgo : placeArgGo arg [] p with e | outs <;> rw [hgo] at h
    · cases h
    · rcases hrest : placeArgAll arg ps with e | rest <;> rw [hrest] at h
      · cases h
      · cases h
        have hsum := placeArgGo_sum j arg p [] outs p.length
          (by simp only [List.length_nil, Nat.zero_add]) hgo
        simp only [List.map_append, List.sum_append, List.map_cons,
          List.sum_cons]
        rw [hsum, ih rest hrest, fubiniF]
        ring

/-- The placement fold counts arrangements by fubiniF of the remaining
argument count. -/
theorem placeArgs_length (args : List (List SNode)) :
    ∀ (perms out : List (List (List SNode))),
      placeArgs args perms = .ok out →
      out.length = (perms.map fun p => fubiniF args.length p.length).sum := by
  induction args with
  | nil =>
    intro perms out h
    rw [placeArgs] at h
    cases h
    simp only [List.length_nil]
    induction perms with
    | nil => rfl
    | cons p ps ihp =>
      simp only [List.map_cons, List.sum_cons, List.length_cons, ihp]
      rw [fubiniF]
      omega
  | cons a rest ih =>
    intro perms out h
    rw [placeArgs] at h
    rcases hall : placeArgAll a perms with e | next <;> rw [hall] at h
    · cases h
    · have := ih next out h
      rw [this, placeArgAll_sum rest.length a perms next hall]
      simp

/-- getNodePermutations produces exactly OrderedBell-many permutations of its
arguments on success. -/
theorem getNodePermutations_length (hostContextNodes : List SNode)
    (perms : List (List SNode))
    (hne : hostContextNodes ≠ [])
    (hok : getNodePermutations hostContextNodes = .ok perms) :
    perms.length = orderedBell hostContextNodes.length := by
  rw [getNodePermutations] at hok
  have hempty : hostContextNodes.isEmpty = false := by
    cases hostContextNodes with
    | nil => exact absurd rfl hne
    | cons a l => rfl
  rw [hempty] at hok
  simp only [Bool.false_eq_true, if_false] at hok
  split at hok
  · cases hok
  · rename_i args hmap
    have hlen : args.length = hostContextNodes.length := mapM_length _ _ _ hmap
    split at hok
    · cases hok
    · rename_i lastArg hlast
      split at hok
      · cases hok
      · rename_i p hplace
        cases hok
        rw [List.length_map]
        rw [placeArgs_length args.dropLast [[lastArg]] p hplace]
        simp only [List.map_cons, List.map_nil, List.sum_cons, List.sum_nil,
          List.length_cons, List.length_nil]
        have hd : args.dropLast.length = args.length - 1 := List.length_dropLast args
        rw [orderedBell, ← hlen, hd]
        simp only [Nat.zero_add, Nat.add_zero]

/-- createSelectorsGo emits exactly two replacement selectors per
permutation on success. -/
theorem createSelectorsGo_length (sel : List SNode) (idx : Nat) :
    ∀ (perms : List (List SNode)) (out : List (List SNode)),
      createSelectorsGo sel perms idx = .ok out →
      out.length = 2 * perms.length := by
  intro perms
  induction perms with
  | nil =>
    intro out h
    rw [createSelectorsGo] at h
    cases h
    rfl
  | cons p ps ih =>
    intro out h
    rw [createSelectorsGo] at h
    rcases hm : mergedForm sel p idx with e | m <;> rw [hm] at h
    · cases h
    · rcases hrest : createSelectorsGo sel ps idx with e | rest <;> rw [hrest] at h
      · cases h
      · cases h
        simp only [List.length_cons, ih rest hrest]
        omega

/-- Unfolding of the collection pass at the end of the selector. -/
theorem collectGo_nil (i cur : Nat) (idx : Option Nat) (acc : List SNode) :
    collectGo i cur idx acc [] = (acc.reverse, [], idx) := rfl

/-- Unfolding of the collection pass at a global-context pseudo. -/
theorem collectGo_global (i cur : Nat) (idx : Option Nat) (acc rest : List SNode)
    (v : String) (args : List (List SNode))
    (hg : (v == ":-acx-global-context") = true) :
    collectGo i cur idx acc (SNode.pseudo v args :: rest) =
      collectGo (i + 1) cur idx (SNode.pseudo ":UNSCOPED" args :: acc) rest := by
  rw [collectGo]
  simp only [isCombinatorN, hg, if_true, Bool.false_eq_true, if_false]

/-- Unfolding of the collection pass at a :host-context pseudo. -/
theorem collectGo_hostContext (i cur : Nat) (idx : Option Nat) (acc rest : List SNode)
    (v : String) (args : List (List SNode))
    (hg : (v == ":-acx-global-context") = false)
    (hv : (v == ":host-context") = true) :
    collectGo i cur idx acc (SNode.pseudo v args :: rest) =
      ((collectGo (i + 1) cur (if idx.isNone then some cur else idx)
          (hostPseudoN :: acc) rest).1,
        SNode.pseudo v args ::
          (collectGo (i + 1) cur (if idx.isNone then some cur else idx)
            (hostPseudoN :: acc) rest).2.1,
        (collectGo (i + 1) cur (if idx.isNone then some cur else idx)
          (hostPseudoN :: acc) rest).2.2) := by
  rw [collectGo]
  simp only [isCombinatorN, hg, hv, Bool.false_eq_true, if_false, if_true]

/-- Unfolding of the collection pass at an ordinary pseudo. -/
theorem collectGo_pseudoOther (i cur : Nat) (idx : Option Nat) (acc rest : List SNode)
    (v : String) (args : List (List SNode))
    (hg : (v == ":-acx-global-context") = false)
    (hv : (v == ":host-context") = false) :
    collectGo i cur idx acc (SNode.pseudo v args :: rest) =
      collectGo (i + 1) cur idx (SNode.pseudo v args :: acc) rest := by
  rw [collectGo]
  simp only [isCombinatorN, hg, hv, Bool.false_eq_true, if_false]

/-- Unfolding of the collection pass at a non-pseudo node. -/
theorem collectGo_nonPseudo (i cur : Nat) (idx : Option Nat) (acc rest : List SNode)
    (node : SNode) (hnp : isPseudoN node = false) :
    collectGo i cur idx acc (node :: rest) =
      collectGo (i + 1) (if isCombinatorN node then i + 1 else cur) idx
        (node :: acc) rest := by
  cases node with
  | pseudo v args => simp [isPseudoN] at hnp
  | tag v => rfl
  | universal => rfl
  | cls v => rfl
  | id v => rfl
  | attr v => rfl
  | comb v => rfl
  | comment v => rfl
  | selNode v => rfl

/-- Collection pass invariants: the number of collected nodes equals the
number of direct :host-context pseudo children of the remaining nodes, and a
compound index is recorded exactly when one was already recorded or at least
one :host-context is present. -/
theorem collectGo_spec :
    ∀ (rest : List SNode) (i cur : Nat) (idx : Option Nat) (acc : List SNode),
      (collectGo i cur idx acc rest).2.1.length = hostContextCount rest ∧
      ((collectGo i cur idx acc rest).2.2.isSome = true ↔
        (idx.isSome = true ∨ 0 < hostContextCount rest)) := by
  intro rest
  induction rest with
  | nil =>
    intro i cur idx acc
    rw [collectGo_nil]
    refine ⟨rfl, ?_⟩
    simp [hostContextCount]
  | cons node rest' ih =>
    intro i cur idx acc
    by_cases hp : isPseudoN node = true
    · cases node with
      | pseudo v args =>
        by_cases hg : (v == ":-acx-global-context") = true
        · rw [collectGo_global _ _ _ _ _ _ _ hg]
          have hveq : v = ":-acx-global-context" := by simpa using hg
          have hvf : (v == ":host-context") = false := by
            subst hveq; rfl
          obtain ⟨ih1, ih2⟩ := ih (i + 1) cur idx (SNode.pseudo ":UNSCOPED" args :: acc)
          have hcount : hostContextCount (SNode.pseudo v args :: rest') =
              hostContextCount rest' := by
            unfold hostContextCount
            rw [List.countP_cons]
            simp [isPseudoN, pseudoVal, hvf]
          exact ⟨by rw [ih1, hcount], by rw [ih2, hcount]⟩
        · have hgf : (v == ":-acx-global-context") = false := by
            revert hg; cases v == ":-acx-global-context" <;> simp
          by_cases hv : (v == ":host-context") = true
          · rw [collectGo_hostContext _ _ _ _ _ _ _ hgf hv]
            obtain ⟨ih1, ih2⟩ := ih (i + 1) cur
              (if idx.isNone then some cur else idx) (hostPseudoN :: acc)
            have hcount : hostContextCount (SNode.pseudo v args :: rest') =
                hostContextCount rest' + 1 := by
              unfold hostContextCount
              rw [List.countP_cons]
              simp [isPseudoN, pseudoVal, hv]
            have hsome : (if idx.isNone then some cur else idx).isSome = true := by
              cases idx <;> simp
            constructor
            · simp only [List.length_cons]
              rw [ih1, hcount]
            · rw [hcount, ih2]
              simp only [hsome, true_or, true_iff]
              right
              omega
          · have hvf : (v == ":host-context") = false := by
              revert hv; cases v == ":host-context" <;> simp
            rw [collectGo_pseudoOther _ _ _ _ _ _ _ hgf hvf]
            obtain ⟨ih1, ih2⟩ := ih (i + 1) cur idx (SNode.pseudo v args :: acc)
            have hcount : hostContextCount (SNode.pseudo v args :: rest') =
                hostContextCount rest' := by
              unfold hostContextCount
              rw [List.countP_cons]
              simp [isPseudoN, pseudoVal, hvf]
            exact ⟨by rw [ih1, hcount], by rw [ih2, hcount]⟩
      | tag val => simp [isPseudoN] at hp
      | universal => simp [isPseudoN] at hp
      | cls val => simp [isPseudoN] at hp
      | id val => simp [isPseudoN] at hp
      | attr val => simp [isPseudoN] at hp
      | comb val => simp [isPseudoN] at hp
      | comment val => simp [isPseudoN] at hp
      | selNode val => simp [isPseudoN] at hp
    · have hnp : isPseudoN node = false := by
        revert hp; cases isPseudoN node <;> simp
      rw [collectGo_nonPseudo _ _ _ _ _ _ hnp]
      obtain ⟨ih1, ih2⟩ :=
        ih (i + 1) (if isCombinatorN node then i + 1 else cur) idx (node :: acc)
      have hcount : hostContextCount (node :: rest') = hostContextCount rest' := by
        unfold hostContextCount
        rw [List.countP_cons]
        simp [hnp]
      exact ⟨by rw [ih1, hcount], by rw [ih2, hcount]⟩

/-- Claim C1: for every selector containing n chained :host-context pseudo
classes, the host-context rewrite replaces the selector with exactly
2 × OrderedBell(n) replacement selectors (n=1 gives 2, n=2 gives 6, n=3
gives 26), the arrangement generation following the recurrence in which each
arrangement of m compounds yields 2m+1 new arrangements per additional
argument. -/
theorem rewriteHostContext_count (sel : List SNode) (n : Nat)
    (out : List (List SNode)) (hn : hostContextCount sel = n) (hpos : 0 < n)
    (hok : rewriteHostContextSelector sel = .ok out) :
    out.length = 2 * orderedBell n ∧
    2 * orderedBell 1 = 2 ∧ 2 * orderedBell 2 = 6 ∧ 2 * orderedBell 3 = 26 := by
  refine ⟨?_, by decide, by decide, by decide⟩
  rw [rewriteHostContextSelector] at hok
  obtain ⟨hclen, hcidx⟩ := collectGo_spec sel 0 0 none []
  split at hok
  rename_i sel2 hcNodes idx2 hcoll
  have hc21 : (sel2, hcNodes, idx2).2.1.length = hostContextCount sel := by
    rw [← hcoll]
    exact hclen
  have hc22 : ((sel2, hcNodes, idx2).2.2.isSome = true ↔
      ((none : Option Nat).isSome = true ∨ 0 < hostContextCount sel)) := by
    rw [← hcoll]
    exact hcidx
  simp only at hc21 hc22
  have hlen2 : hcNodes.length = n := by rw [hc21, hn]
  split at hok
  · exfalso
    have h2 : (none : Option Nat).isSome = true := by
      exact hc22.mpr (Or.inr (by omega))
    cases h2
  · rename_i hostContextIndex
    split at hok
    · cases hok
    · rename_i perms hperm
      have hne : hcNodes ≠ [] := by
        intro he
        rw [he] at hlen2
        simp only [List.length_nil] at hlen2
        omega
      have hplen : perms.length = orderedBell n := by
        rw [getNodePermutations_length hcNodes perms hne hperm, hlen2]
      rw [createSelectorsFromPermutations] at hok
      have hpne : perms.isEmpty = false := by
        cases hpe : perms with
        | nil =>
          exfalso
          rw [hpe] at hplen
          simp only [List.length_nil] at hplen
          have := fubiniF_pos (n - 1) 1
          rw [orderedBell] at hplen
          omega
        | cons a l => rfl
      rw [hpne] at hok
      simp only [Bool.false_eq_true, if_false] at hok
      rw [createSelectorsGo_length sel2 hostContextIndex perms out hok, hplen]

/-- Concrete input for the C1 witness: two chained :host-context pseudos. -/
def selC1 : List SNode :=
  [.pseudo ":host-context" [[.cls "x"]], .pseudo ":host-context" [[.cls "y"]]]

/-- Concrete rewrite output for the C1 witness (six replacement selectors).
-/
def outC1 : List (List SNode) :=
  [[.pseudo ":UNSCOPED" [[.cls "x"]], .comb " ", .pseudo ":UNSCOPED" [[.cls "y"]],
    .comb " ", .pseudo ":host" [], .pseudo ":host" []],
   [.pseudo ":UNSCOPED" [[.cls "x"]], .comb " ", .pseudo ":host" [],
    .pseudo ":host" [], .cls "y"],
   [.pseudo ":UNSCOPED" [[.cls "y", .cls "x"]], .comb " ", .pseudo ":host" [],
    .pseudo ":host" []],
   [.pseudo ":host" [], .pseudo ":host" [], .cls "y", .cls "x"],
   [.pseudo ":UNSCOPED" [[.cls "y"]], .comb " ", .pseudo ":UNSCOPED" [[.cls "x"]],
    .comb " ", .pseudo ":host" [], .pseudo ":host" []],
   [.pseudo ":UNSCOPED" [[.cls "y"]], .comb " ", .pseudo ":host" [],
    .pseudo ":host" [], .cls "x"]]

/-- Witness for C1 at the concrete selector with two :host-context pseudos:
the rewrite yields six replacement selectors, which is 2 × OrderedBell(2). -/
theorem rewriteHostContext_count_witness :
    hostContextCount selC1 = 2 ∧ 0 < 2 ∧
    rewriteHostContextSelector selC1 = .ok outC1 ∧
    outC1.length = 2 * orderedBell 2 :=
  ⟨rfl, by decide, rfl,
    (rewriteHostContext_count selC1 2 outC1 rfl (by decide) rfl).1⟩

/-- Rule body free of comments. -/
def ruleCommentFree (r : CssRule) : Bool :=
  r.body.all fun c =>
    match c with
    | .comment _ => false
    | _ => true

/-- Concrete stylesheet for the C2 counterexample: a keyframes at-rule whose
from-rule carries a comment in its body. -/
def kfTree : List CssNode :=
  [.atRule "keyframes" "spin"
    [.rule ⟨[[.tag "from"]], [.comment " c ", .decl "opacity: 0"]⟩]]

/-- Counterexample to C2 as stated: the from-rule sits directly inside a
keyframes at-rule, yet the transform does not serialize it byte-identical to
the input, because the comment-removal pass of the same Once hook strips the
comment from its body. -/
theorem once_keyframes_comment_counterexample :
    onceTransform 1 "content" "host" false kfTree =
      .ok [.atRule "keyframes" "spin"
        [.rule ⟨[[.tag "from"]], [.decl "opacity: 0"]⟩]] ∧
    serCssNodes [.atRule "keyframes" "spin"
        [.rule ⟨[[.tag "from"]], [.decl "opacity: 0"]⟩]] ≠
      serCssNodes kfTree := by
  have h1 : onceTransform 1 "content" "host" false kfTree =
      .ok [.atRule "keyframes" "spin"
        [.rule ⟨[[.tag "from"]], [.decl "opacity: 0"]⟩]] := by
    simp [onceTransform, stripCssNodes, stripRuleBody, kfTree, processCssNodes,
      atRulesToSkip]
  have h2 : serCssNodes [CssNode.atRule "keyframes" "spin"
      [.rule ⟨[[.tag "from"]], [.decl "opacity: 0"]⟩]] =
      "@keyframes spin{from{opacity: 0;}}" := by
    simp [serCssNodes, serRule, serRuleBody, serRuleChild, serSelectorList,
      serSList, serSNode]
  have h3 : serCssNodes kfTree = "@keyframes spin{from{/* c */opacity: 0;}}" := by
    simp [serCssNodes, serRule, serRuleBody, serRuleChild, serSelectorList,
      serSList, serSNode, kfTree]
  refine ⟨h1, ?_⟩
  rw [h2, h3]
  intro h
  exact absurd (congrArg String.length h) (by decide)

/-- Claim C2, amended: a style rule whose immediate parent is an at-rule on
the keyframes skip-list and whose body contains no comments is left
untouched by the transform (passed through unchanged ahead of its processed
siblings), and the comment-removal pass leaves its serialization
byte-identical; without the comment-free condition the comment pass may
change the rule, as the counterexample shows.  The selector is untouched in
either case. -/
theorem keyframes_rule_untouched (fuel : Nat) (content host : String)
    (legacy : Bool) (name : String) (r : CssRule) (rest : List CssNode)
    (hname : atRulesToSkip.contains name = true)
    (hnc : ruleCommentFree r = true) :
    processCssNodes fuel content host legacy (some name)
        (stripCssNodes (CssNode.rule r :: rest)) =
      (processCssNodes fuel content host legacy (some name)
          (stripCssNodes rest)).map (fun rest' => CssNode.rule r :: rest') ∧
    serRule ⟨r.selector, stripRuleBody r.body⟩ = serRule r := by
  have hstrip : stripRuleBody r.body = r.body := by
    rw [stripRuleBody]
    rw [List.filter_eq_self]
    intro a ha
    rw [ruleCommentFree, List.all_eq_true] at hnc
    exact hnc a ha
  constructor
  · rw [stripCssNodes, hstrip]
    rw [processCssNodes]
    simp only [hname, if_true]
    cases processCssNodes fuel content host legacy (some name) (stripCssNodes rest) with
    | error e => rfl
    | ok rest' => rfl
  · rw [hstrip]

/-- Witness for the amended C2 at a concrete keyframes rule without
comments: it passes through the whole transform unchanged. -/
theorem keyframes_rule_untouched_witness :
    atRulesToSkip.contains "keyframes" = true ∧
    ruleCommentFree ⟨[[.tag "from"]], [.decl "opacity: 0"]⟩ = true ∧
    processCssNodes 1 "content" "host" false (some "keyframes")
        (stripCssNodes [CssNode.rule ⟨[[.tag "from"]], [.decl "opacity: 0"]⟩]) =
      (processCssNodes 1 "content" "host" false (some "keyframes")
          (stripCssNodes [])).map
        (fun rest' => CssNode.rule ⟨[[.tag "from"]], [.decl "opacity: 0"]⟩ :: rest') :=
  ⟨rfl, rfl,
    (keyframes_rule_untouched 1 "content" "host" false "keyframes"
      ⟨[[.tag "from"]], [.decl "opacity: 0"]⟩ [] rfl rfl).1⟩

/-! Plain selectors: compounds of simple selector nodes, ordinary pseudo
classes (possibly :root) and an optional trailing pseudo-element, joined by
combinators.  These carry no :host, :UNSCOPED or ::ng-deep, so the shimmer's
content-class machinery is exercised in isolation over them. -/

/-- Simple selector node (tag, universal, class, id, attribute). -/
def isSimpleN : SNode → Bool
  | .tag _ => true
  | .universal => true
  | .cls _ => true
  | .id _ => true
  | .attr _ => true
  | _ => false

/-- Pseudo values handled specially by the shimmer. -/
def isSpecialPseudoVal (v : String) : Bool :=
  v == ":host" || v == ":UNSCOPED" || v == "::ng-deep" || v == ":root"

/-- Test for a :root pseudo node. -/
def isRootP : SNode → Bool
  | .pseudo v _ => v == ":root"
  | _ => false

/-- Ordinary pseudo class: neither special nor a pseudo-element. -/
def isPlainPseudoN : SNode → Bool
  | .pseudo v _ => !(isSpecialPseudoVal v) && !(isPseudoElementVal v)
  | _ => false

/-- Node allowed in a plain compound's prefix. -/
def isPrefixNodeN (n : SNode) : Bool :=
  isSimpleN n || isRootP n || isPlainPseudoN n

/-- Plain pseudo-element terminating a compound (not the shadow-piercing
pseudo). -/
def isPlainPE (n : SNode) : Bool :=
  match n with
  | .pseudo v _ => isPseudoElementVal v && !(v == "::ng-deep")
  | _ => false

/-- Plain compound: a prefix of simple and ordinary pseudo nodes followed by
an optional pseudo-element. -/
structure PComp where
  pre : List SNode
  pe : Option SNode

/-- Wellformedness of a plain compound: every prefix node is allowed, the
trailing node if present is a plain pseudo-element, and the compound is
nonempty. -/
def PComp.ok (c : PComp) : Bool :=
  c.pre.all isPrefixNodeN &&
    (match c.pe with
     | some p => isPlainPE p
     | none => !c.pre.isEmpty)

/-- Node list of the compound. -/
def PComp.nodes (c : PComp) : List SNode := c.pre ++ c.pe.toList

/-- Whether the compound contains a :root pseudo. -/
def PComp.hasRoot (c : PComp) : Bool := c.pre.any isRootP

/-- Modelled from the spec: the shimmed form of an eligible plain compound
gains the content-scope attribute marker exactly once, at the compound tail
before any trailing pseudo-element; a compound containing :root is never
content-scoped and stays unchanged. -/
def PComp.shimmed (content : String) (c : PComp) : List SNode :=
  if c.hasRoot then c.nodes else c.pre ++ .attr content :: c.pe.toList

/-- Node list of a selector built from a head compound and a tail of
combinator-compound pairs. -/
def selFromComps (c0 : PComp) (t : List (SNode × PComp)) : List SNode :=
  c0.nodes ++ t.flatMap fun p => p.1 :: p.2.nodes

/-- Modelled from the spec: the expected shimmed selector, compound by
compound. -/
def shimFromComps (content : String) (c0 : PComp) (t : List (SNode × PComp)) :
    List SNode :=
  c0.shimmed content ++ t.flatMap fun p => p.1 :: p.2.shimmed content

/-- Wellformedness of the tail: combinators between wellformed compounds. -/
def tailOk (t : List (SNode × PComp)) : Bool :=
  t.all fun p => isCombinatorN p.1 && p.2.ok

/-- Nodes inert for a shimmer in the pierced region: anything but the
special :host, :UNSCOPED and ::ng-deep pseudos. -/
def isInertN : SNode → Bool
  | .pseudo v _ => !(v == ":host") && !(v == ":UNSCOPED") && !(v == "::ng-deep")
  | _ => true

/-- Rest of a selector at a compound boundary: empty or starting with a
combinator. -/
def restOkB : List SNode → Bool
  | [] => true
  | n :: _ => isCombinatorN n

/-- Compound result when entering with content flag b: the marker is added
at the tail exactly when the flag holds and no :root disables it. -/
def shimRes (content : String) (b : Bool) (pre : List SNode) (pe : Option SNode) :
    List SNode :=
  if b && !(pre.any isRootP) then pre ++ .attr content :: pe.toList
  else pre ++ pe.toList

/-- Number of loop iterations spent on the compound when entering with
content flag b. -/
def visitsGen (b : Bool) (pre : List SNode) (pe : Option SNode) : Nat :=
  if b && !(pre.any isRootP) then
    (if pre.isEmpty then 1 else pre.length + 1 + pe.toList.length)
  else pre.length + pe.toList.length

/-- A prefix node is not a combinator. -/
theorem prefixNode_not_comb {x : SNode} (hx : isPrefixNodeN x = true) :
    isCombinatorN x = false := by
  cases x <;>
    first
    | rfl
    | simp [isPrefixNodeN, isSimpleN, isRootP, isPlainPseudoN] at hx

/-- A prefix node is not a pseudo-element and not a boundary. -/
theorem prefixNode_not_boundary {x : SNode} (hx : isPrefixNodeN x = true) :
    isBoundaryN x = false := by
  cases x with
  | pseudo v args =>
    show isPseudoElementVal v = false
    simp only [isPrefixNodeN, isSimpleN, isRootP, isPlainPseudoN,
      Bool.false_or] at hx
    rcases Bool.or_eq_true _ _ |>.mp hx with h | h
    · have hveq : v = ":root" := by simpa using h
      subst hveq
      rfl
    · rcases Bool.and_eq_true _ _ |>.mp h with ⟨_, h2⟩
      simp only [Bool.not_eq_true'] at h2
      exact h2
  | tag v => rfl
  | universal => rfl
  | cls v => rfl
  | id v => rfl
  | attr v => rfl
  | comb v => simp [isPrefixNodeN, isSimpleN, isRootP, isPlainPseudoN] at hx
  | comment v => simp [isPrefixNodeN, isSimpleN, isRootP, isPlainPseudoN] at hx
  | selNode v => simp [isPrefixNodeN, isSimpleN, isRootP, isPlainPseudoN] at hx

/-- The content block does nothing when the next node exists and is not a
boundary and the current node is not a pseudo-element. -/
theorem contentBlock_noFire (content : String) (x : SNode) (st : MSt)
    (fl : ShimFlags) (nx : SNode)
    (hnx : st.nodes.get? (st.ext + 1) = some nx)
    (hnb : isBoundaryN nx = false)
    (hxpe : isPseudoElementN x = false)
    (hxpos : st.ext = 0 → isPseudoElementN x = false) :
    contentBlock content x st fl = .ok (st, fl) := by
  rw [contentBlock]
  cases hb : fl.ncc with
  | false =>
    simp only [Bool.false_eq_true, if_false]
  | true =>
    simp only [if_true]
    rw [hnx]
    have hnc : isCombinatorN nx = false := (Bool.or_eq_false_iff.mp hnb).1
    have hnp : isPseudoElementN nx = false := (Bool.or_eq_false_iff.mp hnb).2
    simp only [hnc, hnp, hxpe, Bool.or_self, Bool.false_or, Bool.and_false,
      Bool.false_eq_true, if_false]

/-- Callback evaluation on a prefix node whose successor is present and not
a boundary: nothing is inserted and only the content flag is updated (a
:root clears it). -/
theorem shimCallback_prefix_inner (content host : String) (legacy ch : Bool)
    (st : MSt) (b : Bool) (x nx : SNode)
    (hget : st.nodes.getD st.ext default = x)
    (hx : isPrefixNodeN x = true)
    (hnx : st.nodes.get? (st.ext + 1) = some nx)
    (hnb : isBoundaryN nx = false) :
    shimCallback content host legacy ch st ⟨false, false, b⟩ =
      .ok (st, ⟨false, false, b && !isRootP x⟩) := by
  rw [shimCallback, hget]
  rw [prefixNode_not_comb hx]
  simp only [Bool.false_eq_true, if_false]
  have hnpe : isPseudoElementN x = false := by
    have := prefixNode_not_boundary hx
    rw [isBoundaryN] at this
    exact (Bool.or_eq_false_iff.mp this).2
  have hcb := fun fl => contentBlock_noFire content x st fl nx hnx hnb hnpe
    (fun _ => hnpe)
  cases x with
  | pseudo v args =>
    simp only [isPrefixNodeN, isSimpleN, isRootP, isPlainPseudoN,
      Bool.false_or] at hx
    rcases Bool.or_eq_true _ _ |>.mp hx with h | h
    · have hveq : v = ":root" := by simpa using h
      subst hveq
      simp only [isPseudoN, if_true, pseudoVal,
        show (((":root" : String)) == ":host") = false from rfl,
        show (((":root" : String)) == ":UNSCOPED") = false from rfl,
        show (((":root" : String)) == "::ng-deep") = false from rfl,
        show (((":root" : String)) == ":root") = true from rfl,
        Bool.false_eq_true, if_false, if_true]
      rw [show isRootP (SNode.pseudo ":root" args) = true from rfl]
      simp only [Bool.not_true, Bool.and_false]
      exact hcb ⟨false, false, false⟩
    · rcases Bool.and_eq_true _ _ |>.mp h with ⟨h1, _⟩
      rw [isSpecialPseudoVal] at h1
      simp only [Bool.not_eq_true', Bool.or_eq_false_iff] at h1
      obtain ⟨⟨⟨hh, hu⟩, hd⟩, hr⟩ := h1
      simp only [isPseudoN, if_true, pseudoVal, hh, hu, hd, hr,
        Bool.false_eq_true, if_false]
      rw [show isRootP (SNode.pseudo v args) = (v == ":root") from rfl, hr]
      simp only [Bool.not_false, Bool.and_true]
      exact hcb ⟨false, false, b⟩
  | tag v =>
    simp only [isPseudoN, Bool.false_eq_true, if_false]
    rw [show isRootP (SNode.tag v) = false from rfl]
    simp only [Bool.not_false, Bool.and_true]
    exact hcb ⟨false, false, b⟩
  | universal =>
    simp only [isPseudoN, Bool.false_eq_true, if_false]
    rw [show isRootP SNode.universal = false from rfl]
    simp only [Bool.not_false, Bool.and_true]
    exact hcb ⟨false, false, b⟩
  | cls v =>
    simp only [isPseudoN, Bool.false_eq_true, if_false]
    rw [show isRootP (SNode.cls v) = false from rfl]
    simp only [Bool.not_false, Bool.and_true]
    exact hcb ⟨false, false, b⟩
  | id v =>
    simp only [isPseudoN, Bool.false_eq_true, if_false]
    rw [show isRootP (SNode.id v) = false from rfl]
    simp only [Bool.not_false, Bool.and_true]
    exact hcb ⟨false, false, b⟩
  | attr v =>
    simp only [isPseudoN, Bool.false_eq_true, if_false]
    rw [show isRootP (SNode.attr v) = false from rfl]
    simp only [Bool.not_false, Bool.and_true]
    exact hcb ⟨false, false, b⟩
  | comb v => simp [isPrefixNodeN, isSimpleN, isRootP, isPlainPseudoN] at hx
  | comment v => simp [isPrefixNodeN, isSimpleN, isRootP, isPlainPseudoN] at hx
  | selNode v => simp [isPrefixNodeN, isSimpleN, isRootP, isPlainPseudoN] at hx

/-- Index helpers over list position arithmetic. -/
theorem getD_append_len (done rest : List SNode) (x : SNode) :
    (done ++ x :: rest).getD done.length default = x := by
  rw [List.getD_eq_getElem?_getD, List.getElem?_append_right (le_refl done.length)]
  simp

/-- Element one past a marked position in an append. -/
theorem get?_append_len_succ (done rest : List SNode) (x : SNode) :
    (done ++ x :: rest).get? (done.length + 1) = rest.get? 0 := by
  rw [List.get?_eq_getElem?, List.get?_eq_getElem?,
    List.getElem?_append_right (by omega : done.length ≤ done.length + 1)]
  simp

/-- The content block with the flag cleared does nothing. -/
theorem contentBlock_nccFalse (content : String) (x : SNode) (st : MSt)
    (sd sh : Bool) :
    contentBlock content x st ⟨sd, sh, false⟩ = .ok (st, ⟨sd, sh, false⟩) := rfl

/-- The per-node callback on a prefix node reduces to the content block with
the root-adjusted flag. -/
theorem shimCallback_prefix_step (content host : String) (legacy ch : Bool)
    (st : MSt) (b : Bool) (x : SNode)
    (hget : st.nodes.getD st.ext default = x)
    (hx : isPrefixNodeN x = true) :
    shimCallback content host legacy ch st ⟨false, false, b⟩ =
      contentBlock content x st ⟨false, false, b && !isRootP x⟩ := by
  rw [shimCallback, hget]
  rw [prefixNode_not_comb hx]
  simp only [Bool.false_eq_true, if_false]
  cases x with
  | pseudo v args =>
    simp only [isPrefixNodeN, isSimpleN, isRootP, isPlainPseudoN,
      Bool.false_or] at hx
    rcases Bool.or_eq_true _ _ |>.mp hx with h | h
    · have hveq : v = ":root" := by simpa using h
      subst hveq
      simp only [isPseudoN, if_true, pseudoVal,
        show (((":root" : String)) == ":host") = false from rfl,
        show (((":root" : String)) == ":UNSCOPED") = false from rfl,
        show (((":root" : String)) == "::ng-deep") = false from rfl,
        show (((":root" : String)) == ":root") = true from rfl,
        Bool.false_eq_true, if_false, if_true]
      rw [show isRootP (SNode.pseudo ":root" args) = true from rfl]
      simp only [Bool.not_true, Bool.and_false]
    · rcases Bool.and_eq_true _ _ |>.mp h with ⟨h1, _⟩
      rw [isSpecialPseudoVal] at h1
      simp only [Bool.not_eq_true', Bool.or_eq_false_iff] at h1
      obtain ⟨⟨⟨hh, hu⟩, hd⟩, hr⟩ := h1
      simp only [isPseudoN, if_true, pseudoVal, hh, hu, hd, hr,
        Bool.false_eq_true, if_false]
      rw [show isRootP (SNode.pseudo v args) = (v == ":root") from rfl, hr]
      simp only [Bool.not_false, Bool.and_true]
  | tag v =>
    simp only [isPseudoN, Bool.false_eq_true, if_false]
    rw [show isRootP (SNode.tag v) = false from rfl]
    simp only [Bool.not_false, Bool.and_true]
  | universal =>
    simp only [isPseudoN, Bool.false_eq_true, if_false]
    rw [show isRootP SNode.universal = false from rfl]
    simp only [Bool.not_false, Bool.and_true]
  | cls v =>
    simp only [isPseudoN, Bool.false_eq_true, if_false]
    rw [show isRootP (SNode.cls v) = false from rfl]
    simp only [Bool.not_false, Bool.and_true]
  | id v =>
    simp only [isPseudoN, Bool.false_eq_true, if_false]
    rw [show isRootP (SNode.id v) = false from rfl]
    simp only [Bool.not_false, Bool.and_true]
  | attr v =>
    simp only [isPseudoN, Bool.false_eq_true, if_false]
    rw [show isRootP (SNode.attr v) = false from rfl]
    simp only [Bool.not_false, Bool.and_true]
  | comb v => simp [isPrefixNodeN, isSimpleN, isRootP, isPlainPseudoN] at hx
  | comment v => simp [isPrefixNodeN, isSimpleN, isRootP, isPlainPseudoN] at hx
  | selNode v => simp [isPrefixNodeN, isSimpleN, isRootP, isPlainPseudoN] at hx

/-- Evaluation of safeInsert for the content attribute anchored at a
non-boundary node whose successor, if any, is a boundary: the marker lands
immediately after the anchor. -/
theorem safeInsert_attr_after (a : String) (st : MSt)
    (hlen : st.ext < st.nodes.length)
    (hxb : isBoundaryN (st.nodes.getD st.ext default) = false)
    (hie : st.iter = (st.ext : Int))
    (hnext : ∀ nx, st.nodes.get? (st.ext + 1) = some nx → isBoundaryN nx = true) :
    safeInsert st st.ext (.attr a) =
      .ok ({ st with nodes := (st.nodes.take (st.ext + 1) ++
          SNode.attr a :: st.nodes.drop (st.ext + 1)) }, st.ext + 1) := by
  rw [safeInsert]
  simp only [show isCombinatorN (SNode.attr a) = false from rfl,
    show isCommentN (SNode.attr a) = false from rfl,
    show isTagN (SNode.attr a) = false from rfl,
    Bool.or_self, Bool.false_eq_true, if_false]
  have hscan : scanFwd st.nodes st.ext =
      (if st.ext + 1 < st.nodes.length then some (st.ext + 1) else none) := by
    rw [scanFwd_unfold, if_pos hlen, hxb]
    simp only [Bool.false_eq_true, if_false]
    rw [scanFwd_unfold]
    by_cases h2 : st.ext + 1 < st.nodes.length
    · rw [if_pos h2, if_pos h2]
      have hnx : ∃ nx, st.nodes.get? (st.ext + 1) = some nx := by
        rw [List.get?_eq_getElem?]
        exact ⟨st.nodes[st.ext + 1], List.getElem?_eq_getElem h2⟩
      obtain ⟨nx, hnx⟩ := hnx
      have hb := hnext nx hnx
      have hgd : st.nodes.getD (st.ext + 1) default = nx := by
        rw [List.getD_eq_getElem?_getD, ← List.get?_eq_getElem?, hnx]
        rfl
      rw [hgd, hb]
      simp
    · rw [if_neg h2, if_neg h2]
  by_cases h2 : st.ext + 1 < st.nodes.length
  · rw [hscan, if_pos h2]
    have hpe : isPseudoElementN (SNode.attr a) = false := rfl
    have hgd : (isPseudoElementN (st.nodes.getD (st.ext + 1) default) &&
        isPseudoElementN (SNode.attr a)) = false := by
      rw [hpe, Bool.and_false]
    simp only [hgd, Bool.false_eq_true, if_false]
    rw [MSt.ins]
    have hc1 : ¬(((st.ext + 1 : Nat) : Int) ≤ st.iter) := by
      rw [hie]
      omega
    have hc2 : ¬(st.ext + 1 ≤ st.ext) := by omega
    rw [if_neg hc1, if_neg hc2]
  · rw [hscan, if_neg h2]
    have hlen2 : st.nodes.length = st.ext + 1 := by omega
    simp only [MSt.push]
    have htake : st.nodes.take (st.ext + 1) = st.nodes :=
      List.take_of_length_le (by omega)
    have hdrop : st.nodes.drop (st.ext + 1) = [] :=
      List.drop_eq_nil_of_le (by omega)
    rw [htake, hdrop, hlen2]

/-- Evaluation of safeInsert for the content attribute anchored at a
pseudo-element: the marker lands immediately before the anchor and both
tracked positions move up. -/
theorem safeInsert_attr_atPE (a : String) (st : MSt)
    (hlen : st.ext < st.nodes.length)
    (hxb : isBoundaryN (st.nodes.getD st.ext default) = true)
    (hxpe : isPseudoElementN (SNode.attr a) = false)
    (hie : st.iter = (st.ext : Int)) :
    safeInsert st st.ext (.attr a) =
      .ok (⟨st.nodes.take st.ext ++ SNode.attr a :: st.nodes.drop st.ext,
        st.iter + 1, st.ext + 1⟩, st.ext) := by
  rw [safeInsert]
  simp only [show isCombinatorN (SNode.attr a) = false from rfl,
    show isCommentN (SNode.attr a) = false from rfl,
    show isTagN (SNode.attr a) = false from rfl,
    Bool.or_self, Bool.false_eq_true, if_false]
  have hscan : scanFwd st.nodes st.ext = some st.ext := by
    rw [scanFwd_unfold, if_pos hlen, hxb]
    simp
  rw [hscan]
  have hgd : (isPseudoElementN (st.nodes.getD st.ext default) &&
      isPseudoElementN (SNode.attr a)) = false := by
    rw [hxpe, Bool.and_false]
  simp only [hgd, Bool.false_eq_true, if_false]
  rw [MSt.ins]
  have hc1 : ((st.ext : Int) ≤ st.iter) := by rw [hie]
  have hc2 : st.ext ≤ st.ext := le_refl _
  rw [if_pos hc1, if_pos hc2]

/-- The content block fires at a non-boundary node whose successor, if
present, is a boundary: the marker is spliced right after the node and the
flag clears. -/
theorem contentBlock_fire (content : String) (x : SNode) (st : MSt) (sd sh : Bool)
    (hlen : st.ext < st.nodes.length)
    (hxb : isBoundaryN (st.nodes.getD st.ext default) = false)
    (hie : st.iter = (st.ext : Int))
    (hfire : ∀ nx, st.nodes.get? (st.ext + 1) = some nx → isBoundaryN nx = true) :
    contentBlock content x st ⟨sd, sh, true⟩ =
      .ok ({ st with nodes := (st.nodes.take (st.ext + 1) ++
          SNode.attr content :: st.nodes.drop (st.ext + 1)) }, ⟨sd, sh, false⟩) := by
  rw [contentBlock]
  simp only [if_true]
  have hbn : (match st.nodes.get? (st.ext + 1) with
      | none => true
      | some nx => isCombinatorN nx || isPseudoElementN nx) = true := by
    cases hn : st.nodes.get? (st.ext + 1) with
    | none => rfl
    | some nx => exact hfire nx hn
  rw [hbn]
  simp only [Bool.true_or, if_true]
  rw [safeInsert_attr_after content st hlen hxb hie hfire]

/-- The content block fires at a pseudo-element node whose successor, if
present, is a boundary: the marker is spliced right before the node and both
tracked positions move up. -/
theorem contentBlock_firePE (content : String) (x : SNode) (st : MSt) (sd sh : Bool)
    (hlen : st.ext < st.nodes.length)
    (hxb : isBoundaryN (st.nodes.getD st.ext default) = true)
    (hie : st.iter = (st.ext : Int))
    (hfire : ∀ nx, st.nodes.get? (st.ext + 1) = some nx → isBoundaryN nx = true) :
    contentBlock content x st ⟨sd, sh, true⟩ =
      .ok (⟨st.nodes.take st.ext ++ SNode.attr content :: st.nodes.drop st.ext,
        st.iter + 1, st.ext + 1⟩, ⟨sd, sh, false⟩) := by
  rw [contentBlock]
  simp only [if_true]
  have hbn : (match st.nodes.get? (st.ext + 1) with
      | none => true
      | some nx => isCombinatorN nx || isPseudoElementN nx) = true := by
    cases hn : st.nodes.get? (st.ext + 1) with
    | none => rfl
    | some nx => exact hfire nx hn
  rw [hbn]
  simp only [Bool.true_or, if_true]
  rw [safeInsert_attr_atPE content st hlen hxb rfl hie]

/-- The per-node callback on a combinator only recomputes the flags. -/
theorem shimCallback_comb (content host : String) (legacy ch : Bool)
    (st : MSt) (fl : ShimFlags) (x : SNode)
    (hget : st.nodes.getD st.ext default = x)
    (hx : isCombinatorN x = true) :
    shimCallback content host legacy ch st fl =
      .ok (st, ⟨fl.seenDeep || (legacy && fl.seenHost), fl.seenHost,
        !(fl.seenDeep || (legacy && fl.seenHost)) && (ch == fl.seenHost)⟩) := by
  rw [shimCallback, hget, hx]
  simp only [if_true]

/-- The four special pseudo values are excluded for a plain pseudo-element.
-/
theorem plainPE_not_special {v : String} {args : List (List SNode)}
    (h : isPlainPE (.pseudo v args) = true) :
    (v == ":host") = false ∧ (v == ":UNSCOPED") = false ∧
    (v == "::ng-deep") = false ∧ (v == ":root") = false := by
  rw [isPlainPE] at h
  rcases Bool.and_eq_true _ _ |>.mp h with ⟨hpe, hnd⟩
  simp only [Bool.not_eq_true'] at hnd
  refine ⟨?_, ?_, hnd, ?_⟩
  · by_cases hv : (v == ":host") = true
    · have : v = ":host" := by simpa using hv
      subst this
      cases hpe
    · revert hv; cases v == ":host" <;> simp
  · by_cases hv : (v == ":UNSCOPED") = true
    · have : v = ":UNSCOPED" := by simpa using hv
      subst this
      cases hpe
    · revert hv; cases v == ":UNSCOPED" <;> simp
  · by_cases hv : (v == ":root") = true
    · have : v = ":root" := by simpa using hv
      subst this
      cases hpe
    · revert hv; cases v == ":root" <;> simp

/-- The per-node callback on a plain pseudo-element reduces to the content
block with unchanged flags. -/
theorem shimCallback_pe_step (content host : String) (legacy ch : Bool)
    (st : MSt) (b : Bool) (x : SNode)
    (hget : st.nodes.getD st.ext default = x)
    (hx : isPlainPE x = true) :
    shimCallback content host legacy ch st ⟨false, false, b⟩ =
      contentBlock content x st ⟨false, false, b⟩ := by
  cases x with
  | pseudo v args =>
    obtain ⟨hh, hu, hd, hr⟩ := plainPE_not_special hx
    rw [shimCallback, hget]
    rw [show isCombinatorN (SNode.pseudo v args) = false from rfl]
    simp only [Bool.false_eq_true, if_false, isPseudoN, if_true, pseudoVal,
      hh, hu, hd, hr]
  | tag v => cases hx
  | universal => cases hx
  | cls v => cases hx
  | id v => cases hx
  | attr v => cases hx
  | comb v => cases hx
  | comment v => cases hx
  | selNode v => cases hx

/-- The per-node callback on an inert non-combinator node with the content
flag cleared does nothing. -/
theorem shimCallback_noop (content host : String) (legacy ch : Bool)
    (st : MSt) (sd sh : Bool) (x : SNode)
    (hget : st.nodes.getD st.ext default = x)
    (hxc : isCombinatorN x = false)
    (hxi : isInertN x = true) :
    shimCallback content host legacy ch st ⟨sd, sh, false⟩ =
      .ok (st, ⟨sd, sh, false⟩) := by
  rw [shimCallback, hget, hxc]
  simp only [Bool.false_eq_true, if_false]
  cases x with
  | pseudo v args =>
    rw [isInertN] at hxi
    simp only [Bool.and_eq_true, Bool.not_eq_true'] at hxi
    obtain ⟨⟨hh, hu⟩, hd⟩ := hxi
    simp only [isPseudoN, if_true, pseudoVal, hh, hu, hd,
      Bool.false_eq_true, if_false]
    by_cases hr : (v == ":root") = true
    · simp only [hr, if_true]
      exact contentBlock_nccFalse content (SNode.pseudo v args) st sd sh
    · have hrf : (v == ":root") = false := by
        revert hr; cases v == ":root" <;> simp
      simp only [hrf, Bool.false_eq_true, if_false]
      exact contentBlock_nccFalse content (SNode.pseudo v args) st sd sh
  | tag v =>
    simp only [isPseudoN, Bool.false_eq_true, if_false]
    exact contentBlock_nccFalse content (SNode.tag v) st sd sh
  | universal =>
    simp only [isPseudoN, Bool.false_eq_true, if_false]
    exact contentBlock_nccFalse content SNode.universal st sd sh
  | cls v =>
    simp only [isPseudoN, Bool.false_eq_true, if_false]
    exact contentBlock_nccFalse content (SNode.cls v) st sd sh
  | id v =>
    simp only [isPseudoN, Bool.false_eq_true, if_false]
    exact contentBlock_nccFalse content (SNode.id v) st sd sh
  | attr v =>
    simp only [isPseudoN, Bool.false_eq_true, if_false]
    exact contentBlock_nccFalse content (SNode.attr v) st sd sh
  | comb v => cases hxc
  | comment v =>
    simp only [isPseudoN, Bool.false_eq_true, if_false]
    exact contentBlock_nccFalse content (SNode.comment v) st sd sh
  | selNode v =>
    simp only [isPseudoN, Bool.false_eq_true, if_false]
    exact contentBlock_nccFalse content (SNode.selNode v) st sd sh

/-- One-step unfolding of the each loop while nodes remain. -/
theorem shimGo_succ (content host : String) (legacy ch : Bool) (fuel : Nat)
    (nodes : List SNode) (iter : Int) (fl : ShimFlags)
    (hlt : iter < (nodes.length : Int)) :
    shimGo content host legacy ch (fuel + 1) nodes iter fl =
      (match shimCallback content host legacy ch ⟨nodes, iter, iter.toNat⟩ fl with
       | .error e => .error e
       | .ok (st', fl') =>
         shimGo content host legacy ch fuel st'.nodes (st'.iter + 1) fl') := by
  rw [shimGo, if_pos hlt]

/-- Termination of the each loop once the index passes the end. -/
theorem shimGo_done (content host : String) (legacy ch : Bool) (fuel : Nat)
    (nodes : List SNode) (iter : Int) (fl : ShimFlags)
    (hge : ¬(iter < (nodes.length : Int))) :
    shimGo content host legacy ch (fuel + 1) nodes iter fl = .ok nodes := by
  rw [shimGo, if_neg hge]

/-- Position bound for a decomposed node list. -/
theorem pos_lt_len (done rest : List SNode) (x : SNode) :
    ((done.length : Int) < (((done ++ x :: rest).length : Nat) : Int)) := by
  simp only [List.length_append, List.length_cons]
  omega

/-- Take of the marked prefix plus one. -/
theorem take_marked (done rest : List SNode) (x : SNode) :
    (done ++ x :: rest).take (done.length + 1) = done ++ [x] := by
  have h : done ++ x :: rest = (done ++ [x]) ++ rest := by simp
  rw [h]
  exact List.take_left' (by simp)

/-- Drop of the marked prefix plus one. -/
theorem drop_marked (done rest : List SNode) (x : SNode) :
    (done ++ x :: rest).drop (done.length + 1) = rest := by
  have h : done ++ x :: rest = (done ++ [x]) ++ rest := by simp
  rw [h]
  exact List.drop_left' (by simp)

/-- Loop step on an interior prefix node: the flag is root-adjusted and the
index advances. -/
theorem shimStep_inner (content host : String) (legacy : Bool) (fuel : Nat)
    (done rest : List SNode) (x nx : SNode) (b : Bool)
    (hx : isPrefixNodeN x = true)
    (hrest : rest.get? 0 = some nx) (hnb : isBoundaryN nx = false) :
    shimGo content host legacy false (fuel + 1) (done ++ x :: rest)
        (done.length : Int) ⟨false, false, b⟩ =
      shimGo content host legacy false fuel (done ++ x :: rest)
        ((done.length : Int) + 1) ⟨false, false, b && !isRootP x⟩ := by
  rw [shimGo_succ _ _ _ _ _ _ _ _ (pos_lt_len done rest x)]
  rw [show ((done.length : Int)).toNat = done.length from rfl]
  have hext : ((done.length : Int)).toNat = done.length := rfl
  have hget : (done ++ x :: rest).getD done.length default = x :=
    getD_append_len done rest x
  have hnx : (done ++ x :: rest).get? (done.length + 1) = some nx := by
    rw [get?_append_len_succ, hrest]
  rw [shimCallback_prefix_inner content host legacy false
    ⟨done ++ x :: rest, (done.length : Int), done.length⟩ b x nx hget hx hnx hnb]

/-- Loop step on the final prefix node with the content flag set: the marker
is spliced right after it. -/
theorem shimStep_fire (content host : String) (legacy : Bool) (fuel : Nat)
    (done rest : List SNode) (x : SNode)
    (hx : isPrefixNodeN x = true)
    (hroot : isRootP x = false)
    (hfr : ∀ nx, rest.get? 0 = some nx → isBoundaryN nx = true) :
    shimGo content host legacy false (fuel + 1) (done ++ x :: rest)
        (done.length : Int) ⟨false, false, true⟩ =
      shimGo content host legacy false fuel
        (done ++ x :: SNode.attr content :: rest)
        ((done.length : Int) + 1) ⟨false, false, false⟩ := by
  rw [shimGo_succ _ _ _ _ _ _ _ _ (pos_lt_len done rest x)]
  rw [show ((done.length : Int)).toNat = done.length from rfl]
  have hget : (done ++ x :: rest).getD done.length default = x :=
    getD_append_len done rest x
  set st : MSt := ⟨done ++ x :: rest, (done.length : Int), done.length⟩ with hst
  have hlen : st.ext < st.nodes.length := by
    rw [hst]
    simp only [List.length_append, List.length_cons]
    omega
  have hxb : isBoundaryN (st.nodes.getD st.ext default) = false := by
    rw [hst]
    simp only
    rw [hget]
    exact prefixNode_not_boundary hx
  have hie : st.iter = (st.ext : Int) := rfl
  have hfire : ∀ nx, st.nodes.get? (st.ext + 1) = some nx → isBoundaryN nx = true := by
    intro nx hnx
    rw [hst] at hnx
    simp only at hnx
    rw [get?_append_len_succ] at hnx
    exact hfr nx hnx
  rw [shimCallback_prefix_step content host legacy false st true x hget hx]
  rw [hroot]
  simp only [Bool.not_false, Bool.and_true]
  rw [contentBlock_fire content x st false false hlen hxb hie hfire]
  rw [show st.nodes = done ++ x :: rest from rfl,
    show st.ext = done.length from rfl,
    show st.iter = (done.length : Int) from rfl]
  rw [take_marked, drop_marked]
  have : done ++ [x] ++ SNode.attr content :: rest =
      done ++ x :: SNode.attr content :: rest := by simp
  rw [this]

/-- Loop step on a pseudo-element opening its compound with the content flag
set: the marker is spliced right before it and the index moves past both. -/
theorem shimStep_firePE (content host : String) (legacy : Bool) (fuel : Nat)
    (done rest : List SNode) (x : SNode)
    (hx : isPlainPE x = true)
    (hfr : ∀ nx, rest.get? 0 = some nx → isBoundaryN nx = true) :
    shimGo content host legacy false (fuel + 1) (done ++ x :: rest)
        (done.length : Int) ⟨false, false, true⟩ =
      shimGo content host legacy false fuel
        (done ++ SNode.attr content :: x :: rest)
        ((done.length : Int) + 2) ⟨false, false, false⟩ := by
  rw [shimGo_succ _ _ _ _ _ _ _ _ (pos_lt_len done rest x)]
  rw [show ((done.length : Int)).toNat = done.length from rfl]
  have hget : (done ++ x :: rest).getD done.length default = x :=
    getD_append_len done rest x
  set st : MSt := ⟨done ++ x :: rest, (done.length : Int), done.length⟩ with hst
  have hlen : st.ext < st.nodes.length := by
    rw [hst]
    simp only [List.length_append, List.length_cons]
    omega
  have hxb : isBoundaryN (st.nodes.getD st.ext default) = true := by
    rw [hst]
    simp only
    rw [hget]
    cases x with
    | pseudo v args =>
      rw [isPlainPE] at hx
      rcases Bool.and_eq_true _ _ |>.mp hx with ⟨hpe, _⟩
      show (isCombinatorN (SNode.pseudo v args) || isPseudoElementN (SNode.pseudo v args)) = true
      rw [show isCombinatorN (SNode.pseudo v args) = false from rfl,
        show isPseudoElementN (SNode.pseudo v args) = isPseudoElementVal v from rfl,
        hpe]
      rfl
    | tag v => cases hx
    | universal => cases hx
    | cls v => cases hx
    | id v => cases hx
    | attr v => cases hx
    | comb v => cases hx
    | comment v => cases hx
    | selNode v => cases hx
  have hie : st.iter = (st.ext : Int) := rfl
  have hfire : ∀ nx, st.nodes.get? (st.ext + 1) = some nx → isBoundaryN nx = true := by
    intro nx hnx
    rw [hst] at hnx
    simp only at hnx
    rw [get?_append_len_succ] at hnx
    exact hfr nx hnx
  rw [shimCallback_pe_step content host legacy false st true x hget hx]
  rw [contentBlock_firePE content x st false false hlen hxb hie hfire]
  rw [show st.nodes = done ++ x :: rest from rfl,
    show st.ext = done.length from rfl,
    show st.iter = (done.length : Int) from rfl]
  rw [List.take_left' rfl, List.drop_left' rfl]
  simp only
  have harith : ((done.length : Int) + 1) + 1 = (done.length : Int) + 2 := by omega
  rw [harith]

/-- Loop step on an inert node with the content flag cleared: nothing
changes. -/
theorem shimStep_noop (content host : String) (legacy : Bool) (fuel : Nat)
    (done rest : List SNode) (x : SNode) (sd sh : Bool)
    (hxc : isCombinatorN x = false)
    (hxi : isInertN x = true) :
    shimGo content host legacy false (fuel + 1) (done ++ x :: rest)
        (done.length : Int) ⟨sd, sh, false⟩ =
      shimGo content host legacy false fuel (done ++ x :: rest)
        ((done.length : Int) + 1) ⟨sd, sh, false⟩ := by
  rw [shimGo_succ _ _ _ _ _ _ _ _ (pos_lt_len done rest x)]
  rw [show ((done.length : Int)).toNat = done.length from rfl]
  have hget : (done ++ x :: rest).getD done.length default = x :=
    getD_append_len done rest x
  rw [shimCallback_noop content host legacy false
    ⟨done ++ x :: rest, (done.length : Int), done.length⟩ sd sh x hget hxc hxi]

/-- Loop step on a combinator: only the flags are recomputed. -/
theorem shimStep_comb (content host : String) (legacy : Bool) (fuel : Nat)
    (done rest : List SNode) (x : SNode) (fl : ShimFlags)
    (hx : isCombinatorN x = true) :
    shimGo content host legacy false (fuel + 1) (done ++ x :: rest)
        (done.length : Int) fl =
      shimGo content host legacy false fuel (done ++ x :: rest)
        ((done.length : Int) + 1)
        ⟨fl.seenDeep || (legacy && fl.seenHost), fl.seenHost,
          !(fl.seenDeep || (legacy && fl.seenHost)) && (false == fl.seenHost)⟩ := by
  rw [shimGo_succ _ _ _ _ _ _ _ _ (pos_lt_len done rest x)]
  rw [show ((done.length : Int)).toNat = done.length from rfl]
  have hget : (done ++ x :: rest).getD done.length default = x :=
    getD_append_len done rest x
  rw [shimCallback_comb content host legacy false
    ⟨done ++ x :: rest, (done.length : Int), done.length⟩ fl x hget hx]

/-- Loop step on a prefix node whose root-adjusted flag comes out cleared:
nothing is inserted and the flag is cleared. -/
theorem shimStep_prefix_clear (content host : String) (legacy : Bool) (fuel : Nat)
    (done rest : List SNode) (x : SNode) (b : Bool)
    (hx : isPrefixNodeN x = true)
    (hb : (b && !isRootP x) = false) :
    shimGo content host legacy false (fuel + 1) (done ++ x :: rest)
        (done.length : Int) ⟨false, false, b⟩ =
      shimGo content host legacy false fuel (done ++ x :: rest)
        ((done.length : Int) + 1) ⟨false, false, false⟩ := by
  rw [shimGo_succ _ _ _ _ _ _ _ _ (pos_lt_len done rest x)]
  rw [show ((done.length : Int)).toNat = done.length from rfl]
  have hget : (done ++ x :: rest).getD done.length default = x :=
    getD_append_len done rest x
  rw [shimCallback_prefix_step content host legacy false
    ⟨done ++ x :: rest, (done.length : Int), done.length⟩ b x hget hx]
  rw [hb, contentBlock_nccFalse]

/-- A wellformed rest starts, if at all, with a boundary node. -/
theorem restOk_boundary {rest : List SNode} (h : restOkB rest = true) :
    ∀ nx, rest.get? 0 = some nx → isBoundaryN nx = true := by
  intro nx hnx
  cases rest with
  | nil => cases hnx
  | cons y ys =>
    have hy : y = nx := by
      have : some y = some nx := hnx
      exact Option.some.inj this
    subst hy
    have hc : isCombinatorN y = true := h
    show (isCombinatorN y || isPseudoElementN y) = true
    rw [hc, Bool.true_or]

/-- A plain pseudo-element is not a combinator and is inert. -/
theorem plainPE_inert {p : SNode} (h : isPlainPE p = true) :
    isCombinatorN p = false ∧ isInertN p = true := by
  cases p with
  | pseudo v args =>
    obtain ⟨hh, hu, hd, _⟩ := plainPE_not_special h
    refine ⟨rfl, ?_⟩
    show (!(v == ":host") && !(v == ":UNSCOPED") && !(v == "::ng-deep")) = true
    rw [hh, hu, hd]
    rfl
  | tag v => cases h
  | universal => cases h
  | cls v => cases h
  | id v => cases h
  | attr v => cases h
  | comb v => cases h
  | comment v => cases h
  | selNode v => cases h

/-- A plain pseudo-element is a boundary node. -/
theorem plainPE_boundary {p : SNode} (h : isPlainPE p = true) :
    isBoundaryN p = true := by
  cases p with
  | pseudo v args =>
    rw [isPlainPE] at h
    rcases Bool.and_eq_true _ _ |>.mp h with ⟨hpe, _⟩
    show (isCombinatorN (SNode.pseudo v args) || isPseudoElementN (SNode.pseudo v args)) = true
    rw [show isCombinatorN (SNode.pseudo v args) = false from rfl,
      show isPseudoElementN (SNode.pseudo v args) = isPseudoElementVal v from rfl,
      hpe]
    rfl
  | tag v => cases h
  | universal => cases h
  | cls v => cases h
  | id v => cases h
  | attr v => cases h
  | comb v => cases h
  | comment v => cases h
  | selNode v => cases h

/-- Peeling one node off the compound result. -/
theorem shimRes_cons (content : String) (b : Bool) (x : SNode)
    (pre : List SNode) (pe : Option SNode) :
    shimRes content b (x :: pre) pe =
      x :: shimRes content (b && !isRootP x) pre pe := by
  rw [shimRes, shimRes, List.any_cons]
  cases b <;> cases hr : isRootP x <;>
    simp [Bool.not_or, Bool.and_assoc] <;>
      (try (split <;> rfl))

/-- Peeling one interior node off the iteration count. -/
theorem visitsGen_cons (b : Bool) (x : SNode) (pre : List SNode)
    (pe : Option SNode) (hne : pre.isEmpty = false) :
    visitsGen b (x :: pre) pe =
      visitsGen (b && !isRootP x) pre pe + 1 := by
  cases pre with
  | nil => cases hne
  | cons y ys =>
    rw [visitsGen, visitsGen, List.any_cons]
    cases b <;> cases hr : isRootP x <;>
      cases hany : (y :: ys).any isRootP <;>
        simp [hany, List.length_cons] <;> omega

/-- Running the loop across one wellformed plain compound entered with
content flag b: the compound is rewritten to shimRes, the flag is cleared
and the index lands at the end of the rewritten compound. -/
theorem shim_compound (content host : String) (legacy : Bool) :
    ∀ (pre : List SNode) (pe : Option SNode) (fuel : Nat)
      (done rest : List SNode) (b : Bool),
    pre.all isPrefixNodeN = true →
    (match pe with
     | some p => isPlainPE p = true
     | none => pre.isEmpty = false) →
    restOkB rest = true →
    shimGo content host legacy false (visitsGen b pre pe + fuel)
        (done ++ (pre ++ pe.toList ++ rest)) (done.length : Int)
        ⟨false, false, b⟩ =
      shimGo content host legacy false fuel
        (done ++ (shimRes content b pre pe ++ rest))
        ((done.length : Int) + ((shimRes content b pre pe).length : Int))
        ⟨false, false, false⟩ := by
  intro pre
  induction pre with
  | nil =>
    intro pe fuel done rest b hpre hok hrest
    cases pe with
    | none => simp at hok
    | some p =>
      have hv : visitsGen b [] (some p) = 1 := by cases b <;> rfl
      rw [hv, Nat.add_comm 1 fuel]
      cases b with
      | true =>
        have hres : shimRes content true [] (some p) =
            [SNode.attr content, p] := by
          simp [shimRes]
        rw [hres]
        have hL : ([] : List SNode) ++ (some p).toList ++ rest = p :: rest := by
          simp
        rw [hL]
        rw [shimStep_firePE content host legacy fuel done rest p hok
          (restOk_boundary hrest)]
        simp
      | false =>
        have hres : shimRes content false [] (some p) = [p] := by
          simp [shimRes]
        rw [hres]
        have hL : ([] : List SNode) ++ (some p).toList ++ rest = p :: rest := by
          simp
        rw [hL]
        obtain ⟨hpc, hpi⟩ := plainPE_inert hok
        rw [shimStep_noop content host legacy fuel done rest p false false hpc hpi]
        simp
  | cons x pre' ih =>
    intro pe fuel done rest b hpre hok hrest
    rw [List.all_cons] at hpre
    rcases Bool.and_eq_true _ _ |>.mp hpre with ⟨hx, hpre'⟩
    cases pre' with
    | nil =>
      have hL : [x] ++ pe.toList ++ rest = x :: (pe.toList ++ rest) := by simp
      rw [hL]
      have hfr : ∀ nx, (pe.toList ++ rest).get? 0 = some nx →
          isBoundaryN nx = true := by
        cases pe with
        | some p =>
          intro nx hnx
          have hpn : p = nx := Option.some.inj hnx
          rw [← hpn]
          exact plainPE_boundary hok
        | none => exact restOk_boundary hrest
      by_cases hb : (b && !isRootP x) = true
      · rcases Bool.and_eq_true _ _ |>.mp hb with ⟨hbt, hroot'⟩
        have hroot : isRootP x = false := by
          revert hroot'; cases isRootP x <;> simp
        subst hbt
        have hv : visitsGen true [x] pe = pe.toList.length + 2 := by
          rw [visitsGen]
          simp [hroot]
          omega
        rw [hv]
        have hres : shimRes content true [x] pe =
            x :: SNode.attr content :: pe.toList := by
          simp [shimRes, hroot]
        rw [hres]
        rw [show pe.toList.length + 2 + fuel = (pe.toList.length + 1 + fuel) + 1
          from by omega]
        rw [shimStep_fire content host legacy (pe.toList.length + 1 + fuel)
          done (pe.toList ++ rest) x hx hroot hfr]
        have hL2 : done ++ x :: SNode.attr content :: (pe.toList ++ rest) =
            (done ++ [x]) ++ SNode.attr content :: (pe.toList ++ rest) := by
          simp
        rw [hL2]
        have hlen2 : ((done ++ [x]).length : Int) = (done.length : Int) + 1 := by
          simp
        rw [← hlen2]
        rw [show pe.toList.length + 1 + fuel = (pe.toList.length + fuel) + 1
          from by omega]
        rw [shimStep_noop content host legacy (pe.toList.length + fuel)
          (done ++ [x]) (pe.toList ++ rest) (SNode.attr content) false false
          rfl rfl]
        cases pe with
        | none =>
          rw [show (none : Option SNode).toList.length + fuel = fuel from by simp]
          rw [hlen2]
          rw [show ((done.length : Int) + 1) + 1 = (done.length : Int) + 2
            from by ring]
          simp [Option.toList]
        | some p =>
          have hL3 : (done ++ [x]) ++ SNode.attr content ::
              ((some p).toList ++ rest) =
              ((done ++ [x]) ++ [SNode.attr content]) ++ p :: rest := by
            simp
          rw [hL3]
          have hlen3 : (((done ++ [x]) ++ [SNode.attr content]).length : Int) =
              ((done ++ [x]).length : Int) + 1 := by
            simp
            omega
          rw [← hlen3]
          rw [show (some p).toList.length + fuel = fuel + 1 from by simp; omega]
          obtain ⟨hpc, hpi⟩ := plainPE_inert hok
          rw [shimStep_noop content host legacy fuel
            ((done ++ [x]) ++ [SNode.attr content]) rest p false false hpc hpi]
          have hLfin : ((done ++ [x]) ++ [SNode.attr content]) ++ p :: rest =
              done ++ ((x :: SNode.attr content :: (some p).toList) ++ rest) := by
            simp [Option.toList]
          have hIfin : ((((done ++ [x]) ++ [SNode.attr content]).length : Int) + 1) =
              (done.length : Int) +
                ((x :: SNode.attr content :: (some p).toList).length : Int) := by
            simp [Option.toList]
            omega
          rw [hLfin, hIfin]
      · have hbf : (b && !isRootP x) = false := by
          revert hb; cases b && !isRootP x <;> simp
        have hv : visitsGen b [x] pe = pe.toList.length + 1 := by
          rw [visitsGen]
          have hc : (b && !([x].any isRootP)) = false := by
            rw [show ([x].any isRootP) = isRootP x from by simp]
            exact hbf
          rw [hc]
          simp
          omega
        rw [hv]
        have hres : shimRes content b [x] pe = x :: pe.toList := by
          rw [shimRes]
          have hc : (b && !([x].any isRootP)) = false := by
            rw [show ([x].any isRootP) = isRootP x from by simp]
            exact hbf
          rw [hc]
          simp
        rw [hres]
        rw [show pe.toList.length + 1 + fuel = (pe.toList.length + fuel) + 1
          from by omega]
        rw [shimStep_prefix_clear content host legacy (pe.toList.length + fuel)
          done (pe.toList ++ rest) x b hx hbf]
        cases pe with
        | none =>
          rw [show (none : Option SNode).toList.length + fuel = fuel from by simp]
          simp
        | some p =>
          have hL3 : done ++ x :: ((some p).toList ++ rest) =
              (done ++ [x]) ++ p :: rest := by simp
          rw [hL3]
          have hlen2 : ((done ++ [x]).length : Int) = (done.length : Int) + 1 := by
            simp
          rw [← hlen2]
          rw [show (some p).toList.length + fuel = fuel + 1 from by simp; omega]
          obtain ⟨hpc, hpi⟩ := plainPE_inert hok
          rw [shimStep_noop content host legacy fuel (done ++ [x]) rest p
            false false hpc hpi]
          have hLfin : (done ++ [x]) ++ p :: rest =
              done ++ ((x :: (some p).toList) ++ rest) := by
            simp [Option.toList]
          have hIfin : (((done ++ [x]).length : Int) + 1) =
              (done.length : Int) + ((x :: (some p).toList).length : Int) := by
            simp [Option.toList]
            omega
          rw [hLfin, hIfin]
    | cons y pre'' =>
      have hvc : visitsGen b (x :: y :: pre'') pe =
          visitsGen (b && !isRootP x) (y :: pre'') pe + 1 := by
        rw [visitsGen_cons]
        rfl
      rw [hvc]
      rw [shimRes_cons]
      have hL : (x :: y :: pre'') ++ pe.toList ++ rest =
          x :: ((y :: pre'') ++ pe.toList ++ rest) := by simp
      rw [hL]
      have hy : isPrefixNodeN y = true := by
        rw [List.all_cons] at hpre'
        exact (Bool.and_eq_true _ _ |>.mp hpre').1
      rw [show visitsGen (b && !isRootP x) (y :: pre'') pe + 1 + fuel =
          (visitsGen (b && !isRootP x) (y :: pre'') pe + fuel) + 1
        from by omega]
      rw [shimStep_inner content host legacy
        (visitsGen (b && !isRootP x) (y :: pre'') pe + fuel)
        done ((y :: pre'') ++ pe.toList ++ rest) x y b hx rfl
        (prefixNode_not_boundary hy)]
      have hL2 : done ++ x :: ((y :: pre'') ++ pe.toList ++ rest) =
          (done ++ [x]) ++ ((y :: pre'') ++ pe.toList ++ rest) := by simp
      rw [hL2]
      have hlen2 : ((done ++ [x]).length : Int) = (done.length : Int) + 1 := by
        simp
      rw [← hlen2]
      rw [ih pe fuel (done ++ [x]) rest (b && !isRootP x) hpre' hok hrest]
      have hL3 : (done ++ [x]) ++
          (shimRes content (b && !isRootP x) (y :: pre'') pe ++ rest) =
          done ++ (x :: shimRes content (b && !isRootP x) (y :: pre'') pe
            ++ rest) := by simp
      rw [hL3, hlen2]
      rw [show ((done.length : Int) + 1 +
          ((shimRes content (b && !isRootP x) (y :: pre'') pe).length : Int)) =
          (done.length : Int) +
            (((shimRes content (b && !isRootP x) (y :: pre'') pe).length : Int) + 1)
        from by ring]
      simp

/-- Content marker test. -/
def isMarkerN (content : String) : SNode → Bool
  | .attr v => v == content
  | _ => false

/-- Iterations spent on the combinator-led tail of a plain selector. -/
def tailVisits (t : List (SNode × PComp)) : Nat :=
  t.foldr (fun p acc => visitsGen true p.2.pre p.2.pe + 1 + acc) 0

/-- Fuel consumed by the shimmer on a whole plain selector, the final
termination check included. -/
def selVisits (c0 : PComp) (t : List (SNode × PComp)) : Nat :=
  visitsGen true c0.pre c0.pe + tailVisits t + 1

/-- The compound result entered with the flag set is the specified shimmed
compound. -/
theorem shimRes_true (content : String) (c : PComp) :
    shimRes content true c.pre c.pe = c.shimmed content := by
  rw [shimRes, PComp.shimmed, PComp.hasRoot, PComp.nodes]
  cases h : c.pre.any isRootP <;> simp [h]

/-- A flattened selector tail followed by a wellformed suffix starts, if at
all, with a boundary. -/
theorem tail_restOk (t : List (SNode × PComp)) (suffix : List SNode)
    (ht : tailOk t = true) (hsuf : restOkB suffix = true) :
    restOkB ((t.flatMap fun p => p.1 :: p.2.nodes) ++ suffix) = true := by
  cases t with
  | nil => exact hsuf
  | cons hd tl =>
    rw [tailOk, List.all_cons] at ht
    rcases Bool.and_eq_true _ _ |>.mp ht with ⟨h1, _⟩
    rcases Bool.and_eq_true _ _ |>.mp h1 with ⟨hcomb, _⟩
    rw [List.flatMap_cons]
    exact hcomb

/-- Running the loop across the combinator-led tail of a plain selector,
entering at a compound boundary with all flags cleared, in front of an
arbitrary wellformed suffix that is left in place. -/
theorem shim_tail (content host : String) (legacy : Bool) (suffix : List SNode)
    (hsuf : restOkB suffix = true) :
    ∀ (t : List (SNode × PComp)) (fuel : Nat) (done : List SNode),
    tailOk t = true →
    shimGo content host legacy false (tailVisits t + fuel)
        (done ++ ((t.flatMap fun p => p.1 :: p.2.nodes) ++ suffix))
        (done.length : Int) ⟨false, false, false⟩ =
      shimGo content host legacy false fuel
        (done ++ ((t.flatMap fun p => p.1 :: p.2.shimmed content) ++ suffix))
        ((done.length : Int) +
          (((t.flatMap fun p => p.1 :: p.2.shimmed content).length : Nat) : Int))
        ⟨false, false, false⟩ := by
  intro t
  induction t with
  | nil =>
    intro fuel done ht
    simp [tailVisits]
  | cons hd tl ih =>
    intro fuel done ht
    obtain ⟨comb, c⟩ := hd
    rw [tailOk, List.all_cons] at ht
    rcases Bool.and_eq_true _ _ |>.mp ht with ⟨h1, ht'⟩
    rcases Bool.and_eq_true _ _ |>.mp h1 with ⟨hcomb, hcok⟩
    rcases Bool.and_eq_true _ _ |>.mp hcok with ⟨hall, hmatch⟩
    rw [List.flatMap_cons, List.flatMap_cons]
    have hL1 : done ++ (((comb :: c.nodes) ++
        tl.flatMap fun p => p.1 :: p.2.nodes) ++ suffix) =
        done ++ comb ::
          (c.nodes ++ ((tl.flatMap fun p => p.1 :: p.2.nodes) ++ suffix)) := by
      simp
    rw [hL1]
    rw [show tailVisits ((comb, c) :: tl) =
        visitsGen true c.pre c.pe + 1 + tailVisits tl from rfl]
    rw [show visitsGen true c.pre c.pe + 1 + tailVisits tl + fuel =
        (visitsGen true c.pre c.pe + (tailVisits tl + fuel)) + 1 from by omega]
    rw [shimStep_comb content host legacy
      (visitsGen true c.pre c.pe + (tailVisits tl + fuel)) done
      (c.nodes ++ ((tl.flatMap fun p => p.1 :: p.2.nodes) ++ suffix)) comb
      ⟨false, false, false⟩ hcomb]
    have hfl : (⟨false || (legacy && false), false,
        !(false || (legacy && false)) && (false == false)⟩ : ShimFlags) =
        ⟨false, false, true⟩ := by
      simp
    rw [hfl]
    have hL2 : done ++ comb ::
        (c.nodes ++ ((tl.flatMap fun p => p.1 :: p.2.nodes) ++ suffix)) =
        (done ++ [comb]) ++ (c.pre ++ c.pe.toList ++
          ((tl.flatMap fun p => p.1 :: p.2.nodes) ++ suffix)) := by
      rw [show c.nodes = c.pre ++ c.pe.toList from rfl]
      simp
    rw [hL2]
    have hlen2 : ((done ++ [comb]).length : Int) = (done.length : Int) + 1 := by
      simp
    rw [← hlen2]
    have hmatch2 : (match c.pe with
        | some p => isPlainPE p = true
        | none => c.pre.isEmpty = false) := by
      revert hmatch
      rw [PComp.ok] at hcok
      cases hpe : c.pe with
      | some p => intro hm; exact hm
      | none =>
        intro hm
        revert hm
        cases hp : c.pre.isEmpty <;> simp
    rw [shim_compound content host legacy c.pre c.pe (tailVisits tl + fuel)
      (done ++ [comb]) ((tl.flatMap fun p => p.1 :: p.2.nodes) ++ suffix)
      true hall hmatch2 (tail_restOk tl suffix ht' hsuf)]
    rw [shimRes_true content c]
    have hL3 : (done ++ [comb]) ++ (c.shimmed content ++
        ((tl.flatMap fun p => p.1 :: p.2.nodes) ++ suffix)) =
        ((done ++ [comb]) ++ c.shimmed content) ++
          ((tl.flatMap fun p => p.1 :: p.2.nodes) ++ suffix) := by
      simp
    rw [hL3]
    have hlen3 : (((done ++ [comb]) ++ c.shimmed content).length : Int) =
        ((done ++ [comb]).length : Int) + ((c.shimmed content).length : Int) := by
      simp
      omega
    rw [← hlen3]
    rw [ih fuel ((done ++ [comb]) ++ c.shimmed content) ht']
    have hLfin : ((done ++ [comb]) ++ c.shimmed content) ++
        ((tl.flatMap fun p => p.1 :: p.2.shimmed content) ++ suffix) =
        done ++ (((comb :: c.shimmed content) ++
          tl.flatMap fun p => p.1 :: p.2.shimmed content) ++ suffix) := by
      simp
    have hIfin : ((((done ++ [comb]) ++ c.shimmed content).length : Int) +
        ((((tl.flatMap fun p => p.1 :: p.2.shimmed content).length : Nat)) : Int)) =
        (done.length : Int) +
          ((((comb :: c.shimmed content) ++
            tl.flatMap fun p => p.1 :: p.2.shimmed content).length : Nat) : Int) := by
      simp
      omega
    rw [hLfin, hIfin]

/-- Running the loop over a whole plain selector placed in front of an
arbitrary wellformed suffix: every compound is rewritten to its shimmed
form, the suffix is left in place and the index lands on the suffix. -/
theorem shim_plain_run (content host : String) (legacy : Bool)
    (c0 : PComp) (t : List (SNode × PComp)) (suffix : List SNode) (fuel : Nat)
    (h0 : c0.ok = true) (ht : tailOk t = true) (hsuf : restOkB suffix = true) :
    shimGo content host legacy false
        (visitsGen true c0.pre c0.pe + tailVisits t + fuel)
        (selFromComps c0 t ++ suffix) 0 ⟨false, false, true⟩ =
      shimGo content host legacy false fuel
        (shimFromComps content c0 t ++ suffix)
        (((shimFromComps content c0 t).length : Nat) : Int)
        ⟨false, false, false⟩ := by
  rw [PComp.ok] at h0
  rcases Bool.and_eq_true _ _ |>.mp h0 with ⟨hall, hmatch⟩
  have hmatch2 : (match c0.pe with
      | some p => isPlainPE p = true
      | none => c0.pre.isEmpty = false) := by
    revert hmatch
    cases hpe : c0.pe with
    | some p => intro hm; exact hm
    | none =>
      intro hm
      revert hm
      cases hp : c0.pre.isEmpty <;> simp
  have hL0 : selFromComps c0 t ++ suffix =
      ([] : List SNode) ++ (c0.pre ++ c0.pe.toList ++
        ((t.flatMap fun p => p.1 :: p.2.nodes) ++ suffix)) := by
    rw [selFromComps, show c0.nodes = c0.pre ++ c0.pe.toList from rfl]
    simp
  rw [hL0]
  rw [show (0 : Int) = ((([] : List SNode).length : Nat) : Int) from rfl]
  rw [show visitsGen true c0.pre c0.pe + tailVisits t + fuel =
      visitsGen true c0.pre c0.pe + (tailVisits t + fuel) from by omega]
  rw [shim_compound content host legacy c0.pre c0.pe (tailVisits t + fuel)
    [] ((t.flatMap fun p => p.1 :: p.2.nodes) ++ suffix) true hall hmatch2
    (tail_restOk t suffix ht hsuf)]
  rw [shimRes_true content c0]
  have hL1 : ([] : List SNode) ++ (c0.shimmed content ++
      ((t.flatMap fun p => p.1 :: p.2.nodes) ++ suffix)) =
      c0.shimmed content ++
        ((t.flatMap fun p => p.1 :: p.2.nodes) ++ suffix) := by
    simp
  rw [hL1]
  have hI1 : (((([] : List SNode).length : Nat) : Int) +
      (((c0.shimmed content).length : Nat) : Int)) =
      (((c0.shimmed content).length : Nat) : Int) := by
    simp
  rw [hI1]
  rw [shim_tail content host legacy suffix hsuf t fuel (c0.shimmed content) ht]
  have hLfin : c0.shimmed content ++
      ((t.flatMap fun p => p.1 :: p.2.shimmed content) ++ suffix) =
      shimFromComps content c0 t ++ suffix := by
    rw [shimFromComps]
    simp
  have hIfin : ((((c0.shimmed content).length : Nat) : Int) +
      (((t.flatMap fun p => p.1 :: p.2.shimmed content).length : Nat) : Int)) =
      (((shimFromComps content c0 t).length : Nat) : Int) := by
    rw [shimFromComps]
    simp
  rw [hLfin, hIfin]

/-- A prefix node is never a direct :host pseudo. -/
theorem prefix_nonHost {x : SNode} (hx : isPrefixNodeN x = true) :
    (isPseudoN x && pseudoVal x == ":host") = false := by
  cases x with
  | pseudo v args =>
    simp only [isPrefixNodeN, isSimpleN, isRootP, isPlainPseudoN,
      Bool.false_or] at hx
    rcases Bool.or_eq_true _ _ |>.mp hx with h | h
    · have hveq : v = ":root" := by simpa using h
      subst hveq
      rfl
    · rcases Bool.and_eq_true _ _ |>.mp h with ⟨h1, _⟩
      rw [isSpecialPseudoVal] at h1
      simp only [Bool.not_eq_true', Bool.or_eq_false_iff] at h1
      obtain ⟨⟨⟨hh, _⟩, _⟩, _⟩ := h1
      show (true && (v == ":host")) = false
      rw [hh, Bool.and_false]
  | tag v => rfl
  | universal => rfl
  | cls v => rfl
  | id v => rfl
  | attr v => rfl
  | comb v => rfl
  | comment v => rfl
  | selNode v => rfl

/-- A plain pseudo-element is never a direct :host pseudo. -/
theorem pe_nonHost {x : SNode} (hx : isPlainPE x = true) :
    (isPseudoN x && pseudoVal x == ":host") = false := by
  cases x with
  | pseudo v args =>
    obtain ⟨hh, _, _, _⟩ := plainPE_not_special hx
    show (true && (v == ":host")) = false
    rw [hh, Bool.and_false]
  | tag v => rfl
  | universal => rfl
  | cls v => rfl
  | id v => rfl
  | attr v => rfl
  | comb v => rfl
  | comment v => rfl
  | selNode v => rfl

/-- All nodes of a wellformed plain compound fail the direct :host test. -/
theorem comp_nonHost {c : PComp} (hc : c.ok = true) :
    ∀ x ∈ c.nodes, (isPseudoN x && pseudoVal x == ":host") = false := by
  intro x hx
  rw [PComp.ok] at hc
  rcases Bool.and_eq_true _ _ |>.mp hc with ⟨hall, hmatch⟩
  rw [PComp.nodes] at hx
  rcases List.mem_append.mp hx with hx | hx
  · exact prefix_nonHost (List.all_eq_true.mp hall x hx)
  · cases hpe : c.pe with
    | none =>
      rw [hpe] at hx
      cases hx
    | some p =>
      rw [hpe] at hx
      have hxp : x = p := by simpa using hx
      subst hxp
      rw [hpe] at hmatch
      exact pe_nonHost hmatch

/-- A combinator fails the direct :host test. -/
theorem comb_nonHost {x : SNode} (hx : isCombinatorN x = true) :
    (isPseudoN x && pseudoVal x == ":host") = false := by
  cases x <;> first | rfl | cases hx

/-- A plain selector has no direct :host pseudo child. -/
theorem selFromComps_nonHost (c0 : PComp) (t : List (SNode × PComp))
    (h0 : c0.ok = true) (ht : tailOk t = true) :
    containsHostPseudo (selFromComps c0 t) = false := by
  rw [containsHostPseudo, List.any_eq_false]
  intro x hx
  rw [selFromComps] at hx
  rcases List.mem_append.mp hx with hx | hx
  · rw [comp_nonHost h0 x hx]
    exact Bool.false_ne_true
  · rcases List.mem_flatMap.mp hx with ⟨p, hp, hxp⟩
    have hpok : (isCombinatorN p.1 && p.2.ok) = true :=
      List.all_eq_true.mp ht p hp
    rcases Bool.and_eq_true _ _ |>.mp hpok with ⟨hc1, hc2⟩
    rcases List.mem_cons.mp hxp with hx1 | hx2
    · subst hx1
      rw [comb_nonHost hc1]
      exact Bool.false_ne_true
    · rw [comp_nonHost hc2 x hx2]
      exact Bool.false_ne_true

/-- The shimmer on a whole wellformed plain selector: every compound is
rewritten to its shimmed form. -/
theorem shimSelectorTop_plain (content host : String) (legacy : Bool)
    (c0 : PComp) (t : List (SNode × PComp)) (extra : Nat)
    (h0 : c0.ok = true) (ht : tailOk t = true) :
    shimSelectorTop (selVisits c0 t + extra) content host legacy
        (selFromComps c0 t) = .ok (shimFromComps content c0 t) := by
  rw [shimSelectorTop, selFromComps_nonHost c0 t h0 ht, shimSelector]
  rw [show (!false) = true from rfl]
  have hL0 : selFromComps c0 t = selFromComps c0 t ++ ([] : List SNode) := by
    simp
  rw [hL0]
  rw [show selVisits c0 t + extra =
      visitsGen true c0.pre c0.pe + tailVisits t + (extra + 1)
    from by rw [selVisits]; omega]
  rw [shim_plain_run content host legacy c0 t [] (extra + 1) h0 ht rfl]
  rw [shimGo_done]
  · rw [List.append_nil]
  · rw [List.append_nil]
    omega
/-- Claim C6: for every selector with no :host pseudo, built of wellformed
plain compounds separated by combinators, the shimmer rewrites each compound
to its shimmed form: the content-scope attribute marker is inserted into
every eligible (root-free) compound exactly once, at the compound tail
before any trailing pseudo-element, and never more than once per compound. -/
theorem shim_content_marker_per_compound (content host : String)
    (legacy : Bool) (c0 : PComp) (t : List (SNode × PComp)) (extra : Nat)
    (h0 : c0.ok = true) (ht : tailOk t = true) :
    containsHostPseudo (selFromComps c0 t) = false ∧
    shimSelectorTop (selVisits c0 t + extra) content host legacy
        (selFromComps c0 t) = .ok (shimFromComps content c0 t) ∧
    (∀ c, c ∈ c0 :: t.map Prod.snd →
      c.nodes.countP (isMarkerN content) = 0 →
      (c.shimmed content).countP (isMarkerN content) =
        if c.hasRoot then 0 else 1) := by
  refine ⟨selFromComps_nonHost c0 t h0 ht,
    shimSelectorTop_plain content host legacy c0 t extra h0 ht, ?_⟩
  intro c hc hcnt
  rw [PComp.shimmed]
  rw [PComp.nodes, List.countP_append] at hcnt
  cases hr : c.hasRoot with
  | false =>
    simp only [Bool.false_eq_true, if_false]
    rw [List.countP_append, List.countP_cons]
    have hm : isMarkerN content (SNode.attr content) = true := by
      show (content == content) = true
      exact beq_self_eq_true content
    rw [hm, if_pos rfl]
    omega
  | true =>
    simp only [if_true]
    rw [PComp.nodes, List.countP_append]
    omega

/-- Claim C6 witness at the selector .foo .bar with content class c. -/
theorem shim_content_marker_per_compound_witness :
    shimSelectorTop (selVisits ⟨[SNode.cls "foo"], none⟩
        [(SNode.comb " ", ⟨[SNode.cls "bar"], none⟩)] + 0) "c" "h" false
      (selFromComps ⟨[SNode.cls "foo"], none⟩
        [(SNode.comb " ", ⟨[SNode.cls "bar"], none⟩)]) =
      .ok [SNode.cls "foo", SNode.attr "c", SNode.comb " ",
        SNode.cls "bar", SNode.attr "c"] ∧
    (PComp.shimmed "c" ⟨[SNode.cls "bar"], none⟩).countP (isMarkerN "c") = 1 := by
  have h := shim_content_marker_per_compound "c" "h" false
    ⟨[SNode.cls "foo"], none⟩ [(SNode.comb " ", ⟨[SNode.cls "bar"], none⟩)] 0
    (by decide) (by decide)
  refine ⟨h.2.1, ?_⟩
  have h2 := h.2.2 ⟨[SNode.cls "bar"], none⟩
    (List.mem_cons.mpr (Or.inr (List.mem_cons_self _ _))) (by decide)
  exact h2.trans (by decide)

/-- Claim C8: for every plain selector and every compound of it containing
a :root pseudo at any position, the shimming pass leaves that compound
unchanged: it never receives the content-scope attribute marker. -/
theorem shim_root_never_marked (content host : String) (legacy : Bool)
    (c0 : PComp) (t : List (SNode × PComp)) (extra : Nat)
    (h0 : c0.ok = true) (ht : tailOk t = true) :
    shimSelectorTop (selVisits c0 t + extra) content host legacy
        (selFromComps c0 t) = .ok (shimFromComps content c0 t) ∧
    (∀ c, c ∈ c0 :: t.map Prod.snd → c.hasRoot = true →
      c.shimmed content = c.nodes ∧
      (c.nodes.countP (isMarkerN content) = 0 →
        (c.shimmed content).countP (isMarkerN content) = 0)) := by
  refine ⟨shimSelectorTop_plain content host legacy c0 t extra h0 ht, ?_⟩
  intro c hc hr
  have hsh : c.shimmed content = c.nodes := by
    rw [PComp.shimmed, hr]
    simp
  refine ⟨hsh, ?_⟩
  intro hcnt
  rw [hsh]
  exact hcnt

/-- Claim C8 witness at the selector .a:root .b with content class c: the
root compound is output unchanged and unmarked while the other compound
gains the marker. -/
theorem shim_root_never_marked_witness :
    shimSelectorTop (selVisits ⟨[SNode.cls "a", SNode.pseudo ":root" []], none⟩
        [(SNode.comb " ", ⟨[SNode.cls "b"], none⟩)] + 0) "c" "h" false
      (selFromComps ⟨[SNode.cls "a", SNode.pseudo ":root" []], none⟩
        [(SNode.comb " ", ⟨[SNode.cls "b"], none⟩)]) =
      .ok [SNode.cls "a", SNode.pseudo ":root" [], SNode.comb " ",
        SNode.cls "b", SNode.attr "c"] ∧
    PComp.shimmed "c" ⟨[SNode.cls "a", SNode.pseudo ":root" []], none⟩ =
      [SNode.cls "a", SNode.pseudo ":root" []] ∧
    (PComp.shimmed "c" ⟨[SNode.cls "a", SNode.pseudo ":root" []], none⟩).countP
      (isMarkerN "c") = 0 := by
  have h := shim_root_never_marked "c" "h" false
    ⟨[SNode.cls "a", SNode.pseudo ":root" []], none⟩
    [(SNode.comb " ", ⟨[SNode.cls "b"], none⟩)] 0 (by decide) (by decide)
  have h2 := h.2 ⟨[SNode.cls "a", SNode.pseudo ":root" []], none⟩
    (List.mem_cons_self _ _) (by decide)
  exact ⟨h.1, h2.1, h2.2 (by decide)⟩

/-- Element at a marked position in an append. -/
theorem get?_append_len (done rest : List SNode) (x : SNode) :
    (done ++ x :: rest).get? done.length = some x := by
  rw [List.get?_eq_getElem?, List.getElem?_append_right (le_refl done.length)]
  simp

/-- The per-node callback on the shadow-piercing pseudo: combinator touchup,
removal of the node, and the deep flag set with the content flag cleared. -/
theorem shimCallback_ngdeep (content host : String) (legacy ch : Bool)
    (st : MSt) (fl : ShimFlags) (args : List (List SNode))
    (hget : st.nodes.getD st.ext default = SNode.pseudo "::ng-deep" args) :
    shimCallback content host legacy ch st fl =
      .ok ((touchupNgDeep st).del (touchupNgDeep st).ext,
        ⟨true, fl.seenHost, false⟩) := by
  rw [shimCallback, hget]
  rw [show isCombinatorN (SNode.pseudo "::ng-deep" args) = false from rfl]
  simp only [Bool.false_eq_true, if_false, isPseudoN, if_true, pseudoVal,
    show ((("::ng-deep" : String)) == ":host") = false from rfl,
    show ((("::ng-deep" : String)) == ":UNSCOPED") = false from rfl,
    show ((("::ng-deep" : String)) == "::ng-deep") = true from rfl]
  exact contentBlock_nccFalse content (SNode.pseudo "::ng-deep" args)
    ((touchupNgDeep st).del (touchupNgDeep st).ext) true fl.seenHost

/-- Loop step on the shadow-piercing pseudo sitting between two descendant
combinators: the pseudo and the leading combinator are removed and the index
is left on the surviving combinator. -/
theorem shimStep_ngdeep_mid (content host : String) (legacy : Bool) (fuel : Nat)
    (done post : List SNode) (args : List (List SNode)) (fl : ShimFlags) :
    shimGo content host legacy false (fuel + 1)
        (done ++ SNode.comb " " :: SNode.pseudo "::ng-deep" args ::
          SNode.comb " " :: post)
        ((done.length : Int) + 1) fl =
      shimGo content host legacy false fuel
        (done ++ SNode.comb " " :: post) (done.length : Int)
        ⟨true, fl.seenHost, false⟩ := by
  have hlt : (done.length : Int) + 1 <
      (((done ++ SNode.comb " " :: SNode.pseudo "::ng-deep" args ::
        SNode.comb " " :: post).length : Nat) : Int) := by
    simp
    omega
  rw [shimGo_succ _ _ _ _ _ _ _ _ hlt]
  rw [show (((done.length : Int) + 1)).toNat = done.length + 1 from by omega]
  have hget : (done ++ SNode.comb " " :: SNode.pseudo "::ng-deep" args ::
      SNode.comb " " :: post).getD (done.length + 1) default =
      SNode.pseudo "::ng-deep" args := by
    rw [show done ++ SNode.comb " " :: SNode.pseudo "::ng-deep" args ::
        SNode.comb " " :: post =
        (done ++ [SNode.comb " "]) ++ SNode.pseudo "::ng-deep" args ::
          (SNode.comb " " :: post) from by simp]
    rw [show done.length + 1 = (done ++ [SNode.comb " "]).length from by simp]
    exact getD_append_len _ _ _
  rw [shimCallback_ngdeep content host legacy false
    ⟨done ++ SNode.comb " " :: SNode.pseudo "::ng-deep" args ::
      SNode.comb " " :: post, (done.length : Int) + 1, done.length + 1⟩ fl args
    hget]
  have htu : touchupNgDeep
      ⟨done ++ SNode.comb " " :: SNode.pseudo "::ng-deep" args ::
        SNode.comb " " :: post, (done.length : Int) + 1, done.length + 1⟩ =
      ⟨done ++ SNode.pseudo "::ng-deep" args :: SNode.comb " " :: post,
        (done.length : Int), done.length⟩ := by
    rw [touchupNgDeep]
    simp only
    rw [show done.length + 1 - 1 = done.length from by omega]
    rw [get?_append_len done (SNode.pseudo "::ng-deep" args ::
      SNode.comb " " :: post) (SNode.comb " ")]
    rw [show (decide (done.length + 1 > 0)) = true from by simp]
    rw [show ((match some (SNode.comb " ") with
      | some (SNode.comb v) => v == " "
      | _ => false) : Bool) = true from rfl]
    simp only [Bool.and_self, if_true]
    rw [MSt.del]
    simp only
    rw [List.take_left' rfl]
    rw [drop_marked done (SNode.pseudo "::ng-deep" args ::
      SNode.comb " " :: post) (SNode.comb " ")]
    rw [if_pos (by omega : ((done.length : Nat) : Int) ≤ (done.length : Int) + 1)]
    rw [if_pos (by omega : done.length < done.length + 1)]
    rw [show (done.length : Int) + 1 - 1 = (done.length : Int) from by ring]
    rw [show done.length + 1 - 1 = done.length from by omega]
  rw [htu]
  have hdel : (⟨done ++ SNode.pseudo "::ng-deep" args :: SNode.comb " " :: post,
      (done.length : Int), done.length⟩ : MSt).del
        ((⟨done ++ SNode.pseudo "::ng-deep" args :: SNode.comb " " :: post,
          (done.length : Int), done.length⟩ : MSt)).ext =
      ⟨done ++ SNode.comb " " :: post, (done.length : Int) - 1,
        done.length⟩ := by
    rw [show ((⟨done ++ SNode.pseudo "::ng-deep" args :: SNode.comb " " :: post,
      (done.length : Int), done.length⟩ : MSt)).ext = done.length from rfl]
    rw [MSt.del]
    simp only
    rw [List.take_left' rfl]
    rw [drop_marked done (SNode.comb " " :: post)
      (SNode.pseudo "::ng-deep" args)]
    rw [if_pos (le_refl ((done.length : Nat) : Int))]
    rw [if_neg (by omega : ¬(done.length < done.length))]
  rw [hdel]
  simp only
  rw [show (done.length : Int) - 1 + 1 = (done.length : Int) from by ring]

/-- Loop step on a leading shadow-piercing pseudo followed by a descendant
combinator: the pseudo and the trailing combinator are removed. -/
theorem shimStep_ngdeep_lead (content host : String) (legacy : Bool)
    (fuel : Nat) (post : List SNode) (args : List (List SNode))
    (fl : ShimFlags) :
    shimGo content host legacy false (fuel + 1)
        (SNode.pseudo "::ng-deep" args :: SNode.comb " " :: post) 0 fl =
      shimGo content host legacy false fuel post 0 ⟨true, fl.seenHost, false⟩ := by
  have hlt : (0 : Int) <
      (((SNode.pseudo "::ng-deep" args :: SNode.comb " " :: post).length :
        Nat) : Int) := by
    simp
    omega
  rw [shimGo_succ _ _ _ _ _ _ _ _ hlt]
  rw [shimCallback_ngdeep content host legacy false
    ⟨SNode.pseudo "::ng-deep" args :: SNode.comb " " :: post, 0, (0 : Int).toNat⟩
    fl args rfl]
  rfl

/-- After the pierce point the loop leaves every inert node unchanged: the
deep flag suppresses all content scoping. -/
theorem shim_deep_run (content host : String) (legacy : Bool) :
    ∀ (post : List SNode) (fuel : Nat) (done : List SNode),
    post.all isInertN = true →
    shimGo content host legacy false (post.length + fuel) (done ++ post)
        (done.length : Int) ⟨true, false, false⟩ =
      shimGo content host legacy false fuel (done ++ post)
        ((done.length : Int) + ((post.length : Nat) : Int))
        ⟨true, false, false⟩ := by
  intro post
  induction post with
  | nil =>
    intro fuel done hall
    simp
  | cons x xs ih =>
    intro fuel done hall
    rw [List.all_cons] at hall
    rcases Bool.and_eq_true _ _ |>.mp hall with ⟨hx, hxs⟩
    rw [show (x :: xs).length + fuel = (xs.length + fuel) + 1 from by
      rw [List.length_cons]; omega]
    by_cases hc : isCombinatorN x = true
    · rw [shimStep_comb content host legacy (xs.length + fuel) done xs x
        ⟨true, false, false⟩ hc]
      have hfl : (⟨true || (legacy && false), false,
          !(true || (legacy && false)) && (false == false)⟩ : ShimFlags) =
          ⟨true, false, false⟩ := by
        simp
      rw [hfl]
      have hL : done ++ x :: xs = (done ++ [x]) ++ xs := by simp
      rw [hL]
      have hlen : ((done ++ [x]).length : Int) = (done.length : Int) + 1 := by
        simp
      rw [← hlen]
      rw [ih fuel (done ++ [x]) hxs]
      have hI : (((done ++ [x]).length : Int) + ((xs.length : Nat) : Int)) =
          ((done.length : Int) + (((x :: xs).length : Nat) : Int)) := by
        simp
        omega
      rw [hI]
    · have hcf : isCombinatorN x = false := by
        revert hc; cases isCombinatorN x <;> simp
      rw [shimStep_noop content host legacy (xs.length + fuel) done xs x
        true false hcf hx]
      have hL : done ++ x :: xs = (done ++ [x]) ++ xs := by simp
      rw [hL]
      have hlen : ((done ++ [x]).length : Int) = (done.length : Int) + 1 := by
        simp
      rw [← hlen]
      rw [ih fuel (done ++ [x]) hxs]
      have hI : (((done ++ [x]).length : Int) + ((xs.length : Nat) : Int)) =
          ((done.length : Int) + (((x :: xs).length : Nat) : Int)) := by
        simp
        omega
      rw [hI]

/-- An inert node is never a direct :host pseudo. -/
theorem inert_nonHost {x : SNode} (hx : isInertN x = true) :
    (isPseudoN x && pseudoVal x == ":host") = false := by
  cases x with
  | pseudo v args =>
    rw [isInertN] at hx
    rcases Bool.and_eq_true _ _ |>.mp hx with ⟨h1, _⟩
    rcases Bool.and_eq_true _ _ |>.mp h1 with ⟨hh, _⟩
    simp only [Bool.not_eq_true'] at hh
    show (true && (v == ":host")) = false
    rw [hh, Bool.and_false]
  | tag v => rfl
  | universal => rfl
  | cls v => rfl
  | id v => rfl
  | attr v => rfl
  | comb v => rfl
  | comment v => rfl
  | selNode v => rfl

/-- The midpoint pierce selector has no direct :host pseudo child. -/
theorem midSel_nonHost (c0 : PComp) (t : List (SNode × PComp))
    (args : List (List SNode)) (post : List SNode)
    (h0 : c0.ok = true) (ht : tailOk t = true)
    (hpost : post.all isInertN = true) :
    containsHostPseudo (selFromComps c0 t ++
      SNode.comb " " :: SNode.pseudo "::ng-deep" args ::
        SNode.comb " " :: post) = false := by
  rw [containsHostPseudo, List.any_eq_false]
  intro x hx
  rcases List.mem_append.mp hx with hx | hx
  · have h := selFromComps_nonHost c0 t h0 ht
    rw [containsHostPseudo] at h
    exact List.any_eq_false.mp h x hx
  · rcases List.mem_cons.mp hx with rfl | hx
    · exact Bool.false_ne_true
    rcases List.mem_cons.mp hx with rfl | hx
    · exact Bool.false_ne_true
    rcases List.mem_cons.mp hx with rfl | hx
    · exact Bool.false_ne_true
    rw [inert_nonHost (List.all_eq_true.mp hpost x hx)]
    exact Bool.false_ne_true

/-- The leading pierce selector has no direct :host pseudo child. -/
theorem leadSel_nonHost (args : List (List SNode)) (post : List SNode)
    (hpost : post.all isInertN = true) :
    containsHostPseudo (SNode.pseudo "::ng-deep" args ::
      SNode.comb " " :: post) = false := by
  rw [containsHostPseudo, List.any_eq_false]
  intro x hx
  rcases List.mem_cons.mp hx with rfl | hx
  · exact Bool.false_ne_true
  rcases List.mem_cons.mp hx with rfl | hx
  · exact Bool.false_ne_true
  rw [inert_nonHost (List.all_eq_true.mp hpost x hx)]
  exact Bool.false_ne_true

/-- Claim C7: the shadow-piercing pseudo between two descendant combinators
is removed together with exactly one adjacent descendant combinator — the
leading one when one precedes it, the trailing one for a leading pierce —
leaving exactly one descendant combinator at the pierce point, and nothing
after the pierce point receives any scoping marker. -/
theorem shim_ngdeep_pierce (content host : String) (legacy : Bool)
    (c0 : PComp) (t : List (SNode × PComp)) (args : List (List SNode))
    (post : List SNode) (extra : Nat)
    (h0 : c0.ok = true) (ht : tailOk t = true)
    (hpost : post.all isInertN = true) :
    shimSelectorTop (selVisits c0 t + post.length + 3 + extra) content host
        legacy (selFromComps c0 t ++ SNode.comb " " ::
          SNode.pseudo "::ng-deep" args :: SNode.comb " " :: post) =
      .ok (shimFromComps content c0 t ++ SNode.comb " " :: post) ∧
    shimSelectorTop (post.length + 2 + extra) content host legacy
        (SNode.pseudo "::ng-deep" args :: SNode.comb " " :: post) =
      .ok post := by
  constructor
  · rw [shimSelectorTop, midSel_nonHost c0 t args post h0 ht hpost,
      shimSelector]
    rw [show (!false) = true from rfl]
    rw [show selVisits c0 t + post.length + 3 + extra =
        visitsGen true c0.pre c0.pe + tailVisits t + (post.length + 4 + extra)
      from by rw [selVisits]; omega]
    rw [shim_plain_run content host legacy c0 t
      (SNode.comb " " :: SNode.pseudo "::ng-deep" args ::
        SNode.comb " " :: post) (post.length + 4 + extra) h0 ht rfl]
    rw [show post.length + 4 + extra = (post.length + 3 + extra) + 1
      from by omega]
    rw [shimStep_comb content host legacy (post.length + 3 + extra)
      (shimFromComps content c0 t)
      (SNode.pseudo "::ng-deep" args :: SNode.comb " " :: post)
      (SNode.comb " ") ⟨false, false, false⟩ rfl]
    have hfl : (⟨false || (legacy && false), false,
        !(false || (legacy && false)) && (false == false)⟩ : ShimFlags) =
        ⟨false, false, true⟩ := by
      simp
    rw [hfl]
    rw [show post.length + 3 + extra = (post.length + 2 + extra) + 1
      from by omega]
    rw [shimStep_ngdeep_mid content host legacy (post.length + 2 + extra)
      (shimFromComps content c0 t) post args ⟨false, false, true⟩]
    rw [show post.length + 2 + extra = (post.length + 1 + extra) + 1
      from by omega]
    rw [shimStep_comb content host legacy (post.length + 1 + extra)
      (shimFromComps content c0 t) post (SNode.comb " ")
      ⟨true, false, false⟩ rfl]
    have hfl2 : (⟨true || (legacy && false), false,
        !(true || (legacy && false)) && (false == false)⟩ : ShimFlags) =
        ⟨true, false, false⟩ := by
      simp
    rw [hfl2]
    have hL : shimFromComps content c0 t ++ SNode.comb " " :: post =
        (shimFromComps content c0 t ++ [SNode.comb " "]) ++ post := by
      simp
    rw [hL]
    have hlen : ((shimFromComps content c0 t ++ [SNode.comb " "]).length :
        Int) = (((shimFromComps content c0 t).length : Nat) : Int) + 1 := by
      simp
    rw [← hlen]
    rw [show post.length + 1 + extra = post.length + (extra + 1)
      from by omega]
    rw [shim_deep_run content host legacy post (extra + 1)
      (shimFromComps content c0 t ++ [SNode.comb " "]) hpost]
    rw [shimGo_done]
    simp only [List.length_append, List.length_cons, List.length_nil]
    push_cast
    omega
  · rw [shimSelectorTop, leadSel_nonHost args post hpost, shimSelector]
    rw [show (!false) = true from rfl]
    rw [show post.length + 2 + extra = (post.length + (extra + 1)) + 1
      from by omega]
    rw [shimStep_ngdeep_lead content host legacy (post.length + (extra + 1))
      post args ⟨false, false, true⟩]
    have hdr := shim_deep_run content host legacy post (extra + 1) [] hpost
    simp only [List.nil_append, List.length_nil, Nat.cast_zero, zero_add]
      at hdr
    rw [hdr]
    rw [shimGo_done]
    omega

/-- Claim C7 witness at the selectors .a PIERCE .b and PIERCE .b. -/
theorem shim_ngdeep_pierce_witness :
    shimSelectorTop (selVisits ⟨[SNode.cls "a"], none⟩ [] + 1 + 3 + 0) "c" "h"
        false (selFromComps ⟨[SNode.cls "a"], none⟩ [] ++ SNode.comb " " ::
          SNode.pseudo "::ng-deep" [] :: SNode.comb " " :: [SNode.cls "b"]) =
      .ok [SNode.cls "a", SNode.attr "c", SNode.comb " ", SNode.cls "b"] ∧
    shimSelectorTop (1 + 2 + 0) "c" "h" false
        (SNode.pseudo "::ng-deep" [] :: SNode.comb " " :: [SNode.cls "b"]) =
      .ok [SNode.cls "b"] := by
  have h := shim_ngdeep_pierce "c" "h" false ⟨[SNode.cls "a"], none⟩ [] []
    [SNode.cls "b"] 0 (by decide) (by decide) (by decide)
  exact ⟨h.1, h.2⟩

end StyleShim
